import Mathlib

/-!
# A proof-of-work block chain (`blockchain.go`)

A shallow embedding of the Go program and the properties of it that its
specification states.

Conventions of the embedding

* A Go `string` is an immutable sequence of bytes: `GoString := List UInt8`.
  String literals of the source are written as their UTF-8 bytes.
* A Go `int` is a 64-bit two's-complement integer.  Fields of type `int` are
  `Int`; every arithmetic operation of the source is followed by `wrapInt`.
* `time.Now()` is an input: the functions that read the clock take the
  reading as an argument (`now`).
* `MineBlock` loops until it finds a digest, with no bound.  The embedding
  gives the loop a number of iterations it may use (`fuel`) and an outcome
  that tells "returned", "panicked" and "still running" apart.  "The call
  returns `b`" is `∃ fuel, MineBlock fuel d b0 = .returned b`.
* `fmt.Printf` output is not modelled.
* Memory is not bounded: an allocation the runtime attempts succeeds; one it
  refuses (a byte slice of more than 2^48 bytes) is a panic.
* A chain is a list of block values: the source's `[]*Block` never holds
  `nil` or the same pointer twice when built by `NewBlockchain`/`AddBlock`.
* `crypto/sha256` and `encoding/hex` are the Go standard library; they are
  embedded from their definition (FIPS 180-4) and checked on test vectors.
-/

set_option maxRecDepth 1000000

namespace Chain

/-! ## Go strings and integers -/

/-- A Go string: a sequence of bytes. -/
abbrev GoString := List UInt8

/-- The bytes of a source literal (UTF-8, as the Go compiler stores it). -/
def lit (s : String) : GoString := s.toUTF8.data.toList

/-- Go's `int` on a 64-bit platform: the value an arithmetic result takes. -/
def wrapInt (x : Int) : Int :=
  (x + 9223372036854775808) % 18446744073709551616 - 9223372036854775808

/-- The largest `int`. -/
def maxInt : Int := 9223372036854775807

/-- The smallest `int`. -/
def minInt : Int := -9223372036854775808

/-- Membership in the range of Go's `int`. -/
def IsInt (x : Int) : Prop := minInt ≤ x ∧ x ≤ maxInt

instance (x : Int) : Decidable (IsInt x) := by
  unfold IsInt; exact inferInstance

/-- The Go runtime's `encoderune`: the UTF-8 encoding of a rune (an `int32`),
with every value that is not a Unicode scalar value encoded as U+FFFD. -/
def encodeRune (r : Int) : GoString :=
  let i : Nat := (r % 4294967296).toNat
  if i ≤ 0x7F then [UInt8.ofNat i]
  else if i ≤ 0x7FF then
    [UInt8.ofNat (0xC0 ||| (i >>> 6)), UInt8.ofNat (0x80 ||| (i &&& 0x3F))]
  else
    let j : Nat := if i > 0x10FFFF ∨ (0xD800 ≤ i ∧ i ≤ 0xDFFF) then 0xFFFD else i
    if i > 0x10FFFF ∨ (0xD800 ≤ i ∧ i ≤ 0xDFFF) ∨ i ≤ 0xFFFF then
      [UInt8.ofNat (0xE0 ||| (j >>> 12)), UInt8.ofNat (0x80 ||| ((j >>> 6) &&& 0x3F)),
       UInt8.ofNat (0x80 ||| (j &&& 0x3F))]
    else
      [UInt8.ofNat (0xF0 ||| (j >>> 18)), UInt8.ofNat (0x80 ||| ((j >>> 12) &&& 0x3F)),
       UInt8.ofNat (0x80 ||| ((j >>> 6) &&& 0x3F)), UInt8.ofNat (0x80 ||| (j &&& 0x3F))]

/-- The conversion `string(v)` of an `int` (the runtime's `intstring`): a
value that does not fit a rune becomes U+FFFD, then the rune is encoded. -/
def intString (v : Int) : GoString :=
  encodeRune (if -2147483648 ≤ v ∧ v ≤ 2147483647 then v else 0xFFFD)

/-- The largest allocation the runtime attempts on a 64-bit platform
(`maxAlloc`, 2^48 bytes): `make` of a longer byte slice panics with
"makeslice: len out of range". -/
def maxAlloc : Int := 281474976710656

/-- Go's `bytes.Repeat(b, count)`; `none` is a panic: on a negative count
("bytes: negative Repeat count"), and on a result of more than `maxAlloc`
bytes (the overflow check of `Repeat`, or `make` in it).  Memory the runtime
does attempt to allocate is taken to be there. -/
def bytesRepeat (b : GoString) (count : Int) : Option GoString :=
  if count < 0 then none
  else if maxAlloc < b.length * count then none
  else some (List.replicate count.toNat b).flatten

/-- Go's `bytes.HasPrefix(s, p)`: `len(s) >= len(p) && Equal(s[:len(p)], p)`. -/
def HasPrefix (s p : GoString) : Bool :=
  decide (p.length ≤ s.length) && (s.take p.length == p)

/-! ## SHA-256 (FIPS 180-4) and hexadecimal encoding -/

namespace SHA256

/-- The round constants: the first 32 bits of the fractional parts of the cube
roots of the first 64 primes. -/
def K : List Nat := [
  1116352408, 1899447441, 3049323471, 3921009573, 961987163, 1508970993,
  2453635748, 2870763221, 3624381080, 310598401, 607225278, 1426881987,
  1925078388, 2162078206, 2614888103, 3248222580, 3835390401, 4022224774,
  264347078, 604807628, 770255983, 1249150122, 1555081692, 1996064986,
  2554220882, 2821834349, 2952996808, 3210313671, 3336571891, 3584528711,
  113926993, 338241895, 666307205, 773529912, 1294757372, 1396182291,
  1695183700, 1986661051, 2177026350, 2456956037, 2730485921, 2820302411,
  3259730800, 3345764771, 3516065817, 3600352804, 4094571909, 275423344,
  430227734, 506948616, 659060556, 883997877, 958139571, 1322822218,
  1537002063, 1747873779, 1955562222, 2024104815, 2227730452, 2361852424,
  2428436474, 2756734187, 3204031479, 3329325298]

/-- Addition of 32-bit words. -/
def add32 (x y : Nat) : Nat := (x + y) % 4294967296

/-- Rotation of a 32-bit word to the right. -/
def rotr (x n : Nat) : Nat := ((x >>> n) ||| (x <<< (32 - n))) % 4294967296

/-- The function Ch of the standard. -/
def ch (x y z : Nat) : Nat := (x &&& y) ^^^ ((4294967295 - x) &&& z)

/-- The function Maj of the standard. -/
def maj (x y z : Nat) : Nat := (x &&& y) ^^^ (x &&& z) ^^^ (y &&& z)

/-- The function Sigma0 (upper case) of the standard. -/
def bsig0 (x : Nat) : Nat := rotr x 2 ^^^ rotr x 13 ^^^ rotr x 22

/-- The function Sigma1 (upper case) of the standard. -/
def bsig1 (x : Nat) : Nat := rotr x 6 ^^^ rotr x 11 ^^^ rotr x 25

/-- The function sigma0 (lower case) of the standard. -/
def ssig0 (x : Nat) : Nat := rotr x 7 ^^^ rotr x 18 ^^^ (x >>> 3)

/-- The function sigma1 (lower case) of the standard. -/
def ssig1 (x : Nat) : Nat := rotr x 17 ^^^ rotr x 19 ^^^ (x >>> 10)

/-- The eight working words. -/
structure St where
  a : Nat
  b : Nat
  c : Nat
  d : Nat
  e : Nat
  f : Nat
  g : Nat
  h : Nat
deriving DecidableEq

/-- The initial hash value: the first 32 bits of the fractional parts of the
square roots of the first 8 primes. -/
def init : St :=
  { a := 1779033703, b := 3144134277, c := 1013904242, d := 2773480762,
    e := 1359893119, f := 2600822924, g := 528734635, h := 1541459225 }

/-- The next word of the message schedule, from the last sixteen (newest first). -/
def nextW (w : List Nat) : Nat :=
  add32 (add32 (ssig1 (w.getD 1 0)) (w.getD 6 0)) (add32 (ssig0 (w.getD 14 0)) (w.getD 15 0))

/-- One round of the compression function. -/
def round (s : St) (k w : Nat) : St :=
  let t1 := add32 (add32 (add32 s.h (bsig1 s.e)) (add32 (ch s.e s.f s.g) k)) w
  let t2 := add32 (bsig0 s.a) (maj s.a s.b s.c)
  ⟨add32 t1 t2, s.a, s.b, s.c, add32 s.d t1, s.e, s.f, s.g⟩

/-- The 64 rounds: the first sixteen take the words of the block, the others
the words the schedule derives from the previous sixteen. -/
def rounds : List Nat → List Nat → List Nat → St → St
  | [], _, _, s => s
  | k :: ks, m :: ms, win, s => rounds ks ms (m :: win) (round s k m)
  | k :: ks, [], win, s =>
      let w := nextW win
      rounds ks [] (w :: win.take 15) (round s k w)

/-- The compression of one 16-word block into the hash value. -/
def compress (s : St) (blockWords : List Nat) : St :=
  let t := rounds K blockWords [] s
  ⟨add32 s.a t.a, add32 s.b t.b, add32 s.c t.c, add32 s.d t.d,
   add32 s.e t.e, add32 s.f t.f, add32 s.g t.g, add32 s.h t.h⟩

/-- The first `n` big-endian 32-bit words of a byte sequence. -/
def wordsOf : Nat → List Nat → List Nat
  | 0, _ => []
  | n + 1, b0 :: b1 :: b2 :: b3 :: rest =>
      (((b0 * 256 + b1) * 256 + b2) * 256 + b3) :: wordsOf n rest
  | _ + 1, _ => []

/-- The hash value after `n` blocks of 64 bytes. -/
def blocks : Nat → List Nat → St → St
  | 0, _, s => s
  | n + 1, bs, s => blocks n (bs.drop 64) (compress s (wordsOf 16 bs))

/-- The `n` low bytes of `x`, most significant first. -/
def toBytesBE : Nat → Nat → List Nat
  | 0, _ => []
  | n + 1, x => (x / 256 ^ n) % 256 :: toBytesBE n x

/-- The padding: a one bit, zeros, and the length in bits on 64 bits. -/
def pad (msg : List Nat) : List Nat :=
  msg ++ 0x80 :: List.replicate ((119 - msg.length % 64) % 64) 0 ++
    toBytesBE 8 (8 * msg.length % 18446744073709551616)

/-- The digest of a message given as a list of byte values. -/
def sum (msg : List Nat) : List Nat :=
  let p := pad msg
  let s := blocks (p.length / 64) p init
  toBytesBE 4 s.a ++ toBytesBE 4 s.b ++ toBytesBE 4 s.c ++ toBytesBE 4 s.d ++
  toBytesBE 4 s.e ++ toBytesBE 4 s.f ++ toBytesBE 4 s.g ++ toBytesBE 4 s.h

end SHA256

/-- The 32 bytes `h.Sum(nil)` returns after `h := sha256.New(); h.Write(msg)`. -/
def sha256Sum (msg : GoString) : GoString :=
  (SHA256.sum (msg.map UInt8.toNat)).map UInt8.ofNat

/-- A digit of `encoding/hex`: an entry of the table `"0123456789abcdef"`. -/
def hexDigit (n : Nat) : UInt8 :=
  if n < 10 then UInt8.ofNat (48 + n) else UInt8.ofNat (87 + n)

/-- Go's `hex.EncodeToString`: two lower-case digits for each byte. -/
def hexEncodeToString : GoString → GoString
  | [] => []
  | v :: rest => hexDigit (v.toNat >>> 4) :: hexDigit (v.toNat &&& 0x0f) :: hexEncodeToString rest

/-! ## The program -/

/-- Go's `time.Time`, as far as the program observes it.  The program only
calls `String()` on a timestamp; `text` is what that call returns (wall clock,
zone offset and abbreviation, monotonic reading).  `loc` stands for the
`*Location` the value carries, which `String()` does not print (it prints the
offset and abbreviation of the zone); no function of the program reads it. -/
structure Time where
  text : GoString
  loc : Nat
deriving DecidableEq

/-- Go's `Time.String()`. -/
def Time.String (t : Time) : GoString := t.text

/-- Block represents each block in the blockchain. -/
structure Block where
  Index : Int
  Timestamp : Time
  Data : GoString
  PrevHash : GoString
  Hash : GoString
  Nonce : Int
deriving DecidableEq

/-- The text `CalculateHash` hashes:
`string(b.Index) + b.Timestamp.String() + b.Data + b.PrevHash + string(b.Nonce)`. -/
def Block.record (b : Block) : GoString :=
  intString b.Index ++ b.Timestamp.String ++ b.Data ++ b.PrevHash ++ intString b.Nonce

/-- CalculateHash calculates the SHA256 hash of the block. -/
def Block.CalculateHash (b : Block) : GoString :=
  hexEncodeToString (sha256Sum b.record)

/-- Blockchain is a series of validated blocks. -/
structure Blockchain where
  blocks : List Block
deriving DecidableEq

/-- What a call has done once it has used the iterations it was given. -/
inductive Outcome (α : Type) where
  | returned (a : α)
  | panicked
  | running
deriving DecidableEq

/-- NewBlockchain creates a new Blockchain with the genesis block. -/
def NewBlockchain (now : Time) : Blockchain :=
  let genesisBlock : Block :=
    { Index := 0, Timestamp := now, Data := lit "Genesis Block", PrevHash := [], Hash := [],
      Nonce := 0 }
  let genesisBlock : Block := { genesisBlock with Hash := genesisBlock.CalculateHash }
  { blocks := [genesisBlock] }

/-- GetLastBlock retrieves the most recent block in the chain; `none` is the
index-out-of-range panic on a chain without blocks. -/
def Blockchain.GetLastBlock (bc : Blockchain) : Option Block :=
  bc.blocks.getLast?

/-- The loop of `MineBlock`, with `zeros` the prefix to find: each iteration
stores the digest, and returns or increments the nonce. -/
def Block.mineLoop (zeros : GoString) : Nat → Block → Outcome Block
  | 0, _ => Outcome.running
  | fuel + 1, b =>
    let b : Block := { b with Hash := b.CalculateHash }
    if HasPrefix b.Hash zeros then Outcome.returned b
    else Block.mineLoop zeros fuel { b with Nonce := wrapInt (b.Nonce + 1) }

/-- MineBlock performs proof-of-work. -/
def Block.MineBlock (fuel : Nat) (difficulty : Int) (b : Block) : Outcome Block :=
  match bytesRepeat (lit "0") difficulty with
  | none => Outcome.panicked
  | some zeros => Block.mineLoop zeros fuel b

/-- AddBlock adds a new block to the blockchain. -/
def Blockchain.AddBlock (fuel : Nat) (now : Time) (data : GoString) (bc : Blockchain) :
    Outcome Blockchain :=
  match bc.GetLastBlock with
  | none => Outcome.panicked
  | some prevBlock =>
    let newBlock : Block :=
      { Index := wrapInt (prevBlock.Index + 1), Timestamp := now, Data := data,
        PrevHash := prevBlock.Hash, Hash := [], Nonce := 0 }
    match newBlock.MineBlock fuel 2 with
    | Outcome.returned mined => Outcome.returned { blocks := bc.blocks ++ [mined] }
    | Outcome.panicked => Outcome.panicked
    | Outcome.running => Outcome.running

/-- The loop of `IsValid` from position `i` on, `prevBlock` being
`blocks[i-1]` and the list the blocks from `blocks[i]` to the end. -/
def Blockchain.validFrom : Block → List Block → Bool
  | _, [] => true
  | prevBlock, currentBlock :: rest =>
    if currentBlock.Hash ≠ currentBlock.CalculateHash then false
    else if currentBlock.PrevHash ≠ prevBlock.Hash then false
    else Blockchain.validFrom currentBlock rest

/-- IsValid checks if the blockchain is valid. -/
def Blockchain.IsValid (bc : Blockchain) : Bool :=
  match bc.blocks with
  | [] => true
  | first :: rest => Blockchain.validFrom first rest

/-- The chains the program builds: `Built n bc` when `bc` is what
`NewBlockchain` returned after `n` calls of `AddBlock` on it that each
returned, with any clock readings and payloads. -/
inductive Built : Nat → Blockchain → Prop where
  | new (now : Time) : Built 0 (NewBlockchain now)
  | add {n : Nat} {bc bc2 : Blockchain} (fuel : Nat) (now : Time) (data : GoString) :
      Built n bc → bc.AddBlock fuel now data = Outcome.returned bc2 → Built (n + 1) bc2

/-- The nonce of the block at the `k`-th iteration of the mining loop, when
the loop started at `n0`: `k` increments of a Go `int`. -/
def nonceAt (n0 : Int) : Nat → Int
  | 0 => n0
  | k + 1 => nonceAt (wrapInt (n0 + 1)) k

/-! ## Vocabulary of the statements -/

/-- The code point a rune value stands for once encoded (argument: the rune
as a `uint32`): itself when it is a Unicode scalar value, U+FFFD otherwise. -/
def scalarOf (i : Nat) : Nat :=
  if 0x10FFFF < i ∨ (0xD800 ≤ i ∧ i ≤ 0xDFFF) then 0xFFFD else i

/-- The UTF-8 encoding of a code point, written with division and remainder. -/
def utf8 (i : Nat) : List Nat :=
  if i ≤ 0x7F then [i]
  else if i ≤ 0x7FF then [192 + i / 64, 128 + i % 64]
  else if i ≤ 0xFFFF then [224 + i / 4096, 128 + i / 64 % 64, 128 + i % 64]
  else [240 + i / 262144, 128 + i / 4096 % 64, 128 + i / 64 % 64, 128 + i % 64]

/-- The integers `string(v)` turns into U+FFFD: those that are not a Unicode
scalar value (negative, a surrogate, above 0x10FFFF) and 0xFFFD itself. -/
def IsReplaced (v : Int) : Prop :=
  v < 0 ∨ 0x10FFFF < v ∨ (0xD800 ≤ v ∧ v ≤ 0xDFFF) ∨ v = 0xFFFD

/-- One of the five hashed fields of `b` set to a different value, the others
and `Hash` left as they are. -/
inductive FieldChanged (b : Block) : Block → Prop where
  | index (v : Int) : v ≠ b.Index → FieldChanged b { b with Index := v }
  | timestamp (t : Time) : t ≠ b.Timestamp → FieldChanged b { b with Timestamp := t }
  | data (d : GoString) : d ≠ b.Data → FieldChanged b { b with Data := d }
  | prevHash (p : GoString) : p ≠ b.PrevHash → FieldChanged b { b with PrevHash := p }
  | nonce (v : Int) : v ≠ b.Nonce → FieldChanged b { b with Nonce := v }

/-- A change of one hashed field that shows in the text `CalculateHash`
hashes: any change of `Data` or `PrevHash`, a change of `Timestamp` to a value
with another `String()`, a change of `Index` or `Nonce` unless `string(...)`
turns both the old and the new value into U+FFFD. -/
inductive TextChanged (b : Block) : Block → Prop where
  | index (v : Int) : v ≠ b.Index → ¬ (IsReplaced v ∧ IsReplaced b.Index) →
      TextChanged b { b with Index := v }
  | timestamp (t : Time) : t.String ≠ b.Timestamp.String →
      TextChanged b { b with Timestamp := t }
  | data (d : GoString) : d ≠ b.Data → TextChanged b { b with Data := d }
  | prevHash (p : GoString) : p ≠ b.PrevHash → TextChanged b { b with PrevHash := p }
  | nonce (v : Int) : v ≠ b.Nonce → ¬ (IsReplaced v ∧ IsReplaced b.Nonce) →
      TextChanged b { b with Nonce := v }

/-! ## A concrete run

The scenario of the specification: `NewBlockchain`, then `AddBlock` of
"First Block", "Second Block" and "Third Block".  The clock readings are
chosen so that each mining call succeeds at nonce 0. -/

/-- A reading of the clock at construction. -/
def clock0 : Time :=
  ⟨lit "2024-01-01 12:00:00.000000001 +0000 UTC m=+0.000010001", 0⟩

/-- A reading of the clock at the first `AddBlock`. -/
def clock1 : Time :=
  ⟨lit "2024-01-01 12:00:00.000000225 +0000 UTC m=+0.000010225", 0⟩

/-- A reading of the clock at the second `AddBlock`. -/
def clock2 : Time :=
  ⟨lit "2024-01-01 12:00:00.000000233 +0000 UTC m=+0.000010233", 0⟩

/-- A reading of the clock at the third `AddBlock`. -/
def clock3 : Time :=
  ⟨lit "2024-01-01 12:00:00.000000261 +0000 UTC m=+0.000010261", 0⟩

/-- The genesis block at `clock0`; its digest is not mined. -/
def block0 : Block :=
  { Index := 0, Timestamp := clock0, Data := lit "Genesis Block", PrevHash := [],
    Hash := lit "d8f1e5c927cd0dadec20f43f9e0c0d72b3787454bd8e2e69c3cd41f8914933de",
    Nonce := 0 }

/-- The block `AddBlock("First Block")` appends at `clock1`. -/
def block1 : Block :=
  { Index := 1, Timestamp := clock1, Data := lit "First Block",
    PrevHash := lit "d8f1e5c927cd0dadec20f43f9e0c0d72b3787454bd8e2e69c3cd41f8914933de",
    Hash := lit "00aabbebcfa2bf2beffa45947089858c3251a667739463fe7e5e08f08514331c",
    Nonce := 0 }

/-- The block `AddBlock("Second Block")` appends at `clock2`. -/
def block2 : Block :=
  { Index := 2, Timestamp := clock2, Data := lit "Second Block",
    PrevHash := lit "00aabbebcfa2bf2beffa45947089858c3251a667739463fe7e5e08f08514331c",
    Hash := lit "0096d9471fd05fe8c81093abf4c4d6b7574c526ec495cd816f48a6e805fab16b",
    Nonce := 0 }

/-- The block `AddBlock("Third Block")` appends at `clock3`. -/
def block3 : Block :=
  { Index := 3, Timestamp := clock3, Data := lit "Third Block",
    PrevHash := lit "0096d9471fd05fe8c81093abf4c4d6b7574c526ec495cd816f48a6e805fab16b",
    Hash := lit "00349fc8274368ac4f82872a56025cda7a6487d8c3fd00c63856867b522b67b6",
    Nonce := 0 }

/-- The chain `NewBlockchain` returns at `clock0`. -/
def chain0 : Blockchain := { blocks := [block0] }

/-- The chain after the first `AddBlock`. -/
def chain1 : Blockchain := { blocks := [block0, block1] }

/-- The chain after the second `AddBlock`. -/
def chain2 : Blockchain := { blocks := [block0, block1, block2] }

/-- The chain after the third `AddBlock`. -/
def chain3 : Blockchain := { blocks := [block0, block1, block2, block3] }

/-- A block before mining, read at another instant: at difficulty 1 the digest
at nonce 0 fails and the digest at nonce 1 has the prefix. -/
def candidate : Block :=
  { Index := 1,
    Timestamp := ⟨lit "2024-01-01 12:00:00.000000008 +0000 UTC m=+0.000010008", 0⟩,
    Data := lit "First Block",
    PrevHash := lit "d8f1e5c927cd0dadec20f43f9e0c0d72b3787454bd8e2e69c3cd41f8914933de",
    Hash := [], Nonce := 0 }

/-- The block `candidate.MineBlock(1)` leaves. -/
def candidateMined : Block :=
  { candidate with
    Hash := lit "0f546bdb78ecfab7ebdbc0b7c88016de65afca1a01bb547ca3f2e1ca6df77b39",
    Nonce := 1 }

/-- A mined block with the index 0xD800 (55296), the index `AddBlock` gives the
block at position 55296 of a chain; `string(55296)` is U+FFFD. -/
def blockD800 : Block :=
  { Index := 55296,
    Timestamp := ⟨lit "2024-01-01 12:00:07.000000593 +0000 UTC m=+7.000010593", 0⟩,
    Data := lit "Block 55296",
    PrevHash := lit "d8f1e5c927cd0dadec20f43f9e0c0d72b3787454bd8e2e69c3cd41f8914933de",
    Hash := lit "00fb6841dd5f4eb0ee001f3410980a9046d0e1405e1a854818ebd2b02f170a1d",
    Nonce := 0 }

/-- A chain `IsValid` accepts, with `blockD800` linked to the genesis block.
It is written down, not built by `AddBlock`: a built chain reaches the index
0xD800 at its position 55296. -/
def chainD800 : Blockchain := { blocks := [block0, blockD800] }

/-- The block `block2` with the last character of its `Data` changed. -/
def block2Edited : Block := { block2 with Data := lit "Second Blocl" }

/-- The block `candidate` with its `Nonce` at the largest `int`. -/
def candidateAtMax : Block := { candidate with Nonce := maxInt }

/-- The genesis block `block0` with the last character of its `Data` changed
and its `Hash` left as it is. -/
def block0Edited : Block := { block0 with Data := lit "Genesis Blocl" }

/-- A block whose `Data` ends where its `PrevHash` begins. -/
def splitEarly : Block :=
  { Index := 1, Timestamp := clock1, Data := lit "First Block", PrevHash := lit "00",
    Hash := [], Nonce := 0 }

/-- The block `splitEarly` with the first character of `PrevHash` moved to
the end of `Data`. -/
def splitLate : Block :=
  { Index := 1, Timestamp := clock1, Data := lit "First Block0", PrevHash := lit "0",
    Hash := [], Nonce := 0 }

/-- The call `b.CalculateHash()` as a transformer of the block behind the
pointer receiver: the digest it returns and the block it leaves.  The body
of the method assigns to no field of `*b`. -/
def Block.CalculateHashCall (b : Block) : GoString × Block :=
  (b.CalculateHash, b)

/-- A lower-case hexadecimal digit: `'0'`..`'9'` or `'a'`..`'f'`. -/
def IsHexDigit (c : UInt8) : Prop :=
  (48 ≤ c.toNat ∧ c.toNat ≤ 57) ∨ (97 ≤ c.toNat ∧ c.toNat ≤ 102)

/-- The integers that are not a Unicode code point `string(v)` can encode:
negative, in the surrogate range, or above 0x10FFFF. -/
def IsInvalidRune (v : Int) : Prop :=
  v < 0 ∨ (0xD800 ≤ v ∧ v ≤ 0xDFFF) ∨ 0x10FFFF < v

/-! ## Basic facts -/

theorem Block.record_setHash (b : Block) (h : GoString) :
    ({ b with Hash := h } : Block).record = b.record := rfl

theorem Block.CalculateHash_setHash (b : Block) (h : GoString) :
    ({ b with Hash := h } : Block).CalculateHash = b.CalculateHash := rfl

theorem Block.CalculateHash_congr {b c : Block} (h : b.record = c.record) :
    b.CalculateHash = c.CalculateHash := by
  unfold Block.CalculateHash; rw [h]

theorem validFrom_nil (p : Block) : Blockchain.validFrom p [] = true := rfl

theorem validFrom_cons (p c : Block) (l : List Block) :
    Blockchain.validFrom p (c :: l) =
      (decide (c.Hash = c.CalculateHash) && decide (c.PrevHash = p.Hash) &&
        Blockchain.validFrom c l) := by
  by_cases h1 : c.Hash = c.CalculateHash <;> by_cases h2 : c.PrevHash = p.Hash <;>
    simp [Blockchain.validFrom, h1, h2]

/-- Appending a block to a list the loop accepts: the loop accepts the longer
list exactly when the new block passes the two checks. -/
theorem validFrom_append (p x : Block) (l : List Block) :
    Blockchain.validFrom p (l ++ [x]) =
      (Blockchain.validFrom p l && decide (x.Hash = x.CalculateHash) &&
        decide (x.PrevHash = ((p :: l).getLast (List.cons_ne_nil p l)).Hash)) := by
  induction l generalizing p with
  | nil => simp [validFrom_cons, validFrom_nil]
  | cons c l ih =>
    rw [List.cons_append, validFrom_cons, validFrom_cons, ih c]
    rw [List.getLast_cons (List.cons_ne_nil c l)]
    simp only [Bool.and_assoc]

/-- The loop of `IsValid`, position by position. -/
theorem validFrom_iff (p : Block) (l : List Block) :
    Blockchain.validFrom p l = true ↔
      ∀ (i : Nat) (cur prev : Block), (p :: l)[i + 1]? = some cur → (p :: l)[i]? = some prev →
        cur.Hash = cur.CalculateHash ∧ cur.PrevHash = prev.Hash := by
  induction l generalizing p with
  | nil => simp [validFrom_nil]
  | cons c l ih =>
    rw [validFrom_cons]
    simp only [Bool.and_eq_true, decide_eq_true_eq, ih c]
    constructor
    · rintro ⟨⟨h1, h2⟩, h3⟩ i cur prev hc hp
      cases i with
      | zero =>
        simp at hc hp
        subst hc; subst hp
        exact ⟨h1, h2⟩
      | succ j =>
        exact h3 j cur prev (by simpa using hc) (by simpa using hp)
    · intro h
      refine ⟨h 0 c p (by simp) (by simp), ?_⟩
      intro i cur prev hc hp
      exact h (i + 1) cur prev (by simpa using hc) (by simpa using hp)

/-! ## The library functions -/

/-- The FIPS 180-4 test vector "abc". -/
theorem sha256_abc :
    hexEncodeToString (sha256Sum (lit "abc")) =
      lit "ba7816bf8f01cfea414140de5dae2223b00361a396177a9cb410ff61f20015ad" := by
  decide

/-- The FIPS 180-4 two-block test vector. -/
theorem sha256_two_blocks :
    hexEncodeToString
        (sha256Sum (lit "abcdbcdecdefdefgefghfghighijhijkijkljklmklmnlmnomnopnopq")) =
      lit "248d6a61d20638b8e5c026930c3e6039a33ce45964ff2167f6ecedd419db06c1" := by
  decide

theorem toBytesBE_length (n x : Nat) : (SHA256.toBytesBE n x).length = n := by
  induction n with
  | zero => rfl
  | succ n ih => simp [SHA256.toBytesBE, ih]

/-- A SHA-256 digest has 32 bytes. -/
theorem sha256Sum_length (msg : GoString) : (sha256Sum msg).length = 32 := by
  simp [sha256Sum, SHA256.sum, toBytesBE_length]

theorem hexEncodeToString_length (s : GoString) :
    (hexEncodeToString s).length = 2 * s.length := by
  induction s with
  | nil => rfl
  | cons v rest ih => simp [hexEncodeToString, ih]; omega

/-- The digest of a block has 64 characters. -/
theorem Block.CalculateHash_length (b : Block) : b.CalculateHash.length = 64 := by
  simp [Block.CalculateHash, hexEncodeToString_length, sha256Sum_length]

theorem lit_zero : lit "0" = [48] := by decide

theorem bytesRepeat_zero (d : Int) (h : 0 ≤ d) (hmax : d ≤ maxAlloc) :
    bytesRepeat (lit "0") d = some (List.replicate d.toNat 48) := by
  have h2 : ¬ d < 0 := by omega
  have h3 : ¬ maxAlloc < (([48] : GoString).length : Int) * d := by
    simp only [List.length_singleton, Nat.cast_one, one_mul]
    omega
  simp only [bytesRepeat, h2, if_false, lit_zero, h3]
  congr 1
  induction d.toNat with
  | zero => rfl
  | succ n ih => simp [List.replicate_succ, ih]

theorem bytesRepeat_neg (d : Int) (h : d < 0) : bytesRepeat (lit "0") d = none := by
  simp [bytesRepeat, h]

theorem bytesRepeat_big (d : Int) (h : maxAlloc < d) : bytesRepeat (lit "0") d = none := by
  have h2 : ¬ d < 0 := by
    unfold maxAlloc at h
    omega
  have h3 : maxAlloc < (([48] : GoString).length : Int) * d := by
    simp only [List.length_singleton, Nat.cast_one, one_mul]
    exact h
  simp only [bytesRepeat, h2, if_false, lit_zero, h3, if_true]

theorem HasPrefix_iff (s p : GoString) :
    HasPrefix s p = true ↔ p.length ≤ s.length ∧ s.take p.length = p := by
  simp [HasPrefix]

/-! ## The conversion `string(int)` -/

theorem or_c0 : ∀ x < 64, 0xC0 ||| x = 192 + x := by decide

theorem or_80 : ∀ x < 64, 0x80 ||| x = 128 + x := by decide

theorem or_e0 : ∀ x < 16, 0xE0 ||| x = 224 + x := by decide

theorem or_f0 : ∀ x < 8, 0xF0 ||| x = 240 + x := by decide

theorem and_3f (x : Nat) : x &&& 0x3F = x % 64 := Nat.and_pow_two_sub_one_eq_mod x 6

theorem shr_eq_div (x n : Nat) : x >>> n = x / 2 ^ n := Nat.shiftRight_eq_div_pow x n

theorem ofNat_inj {a b : Nat} (ha : a < 256) (hb : b < 256)
    (h : UInt8.ofNat a = UInt8.ofNat b) : a = b := by
  have := congrArg UInt8.toNat h
  rwa [UInt8.toNat_ofNat_of_lt ha, UInt8.toNat_ofNat_of_lt hb] at this

/-- The bytes `encoderune` writes are the UTF-8 encoding of the code point. -/
theorem encodeRune_eq (r : Int) :
    encodeRune r = (utf8 (scalarOf (r % 4294967296).toNat)).map UInt8.ofNat := by
  unfold encodeRune
  generalize (r % 4294967296).toNat = i
  unfold scalarOf utf8
  simp only [and_3f, shr_eq_div]
  split_ifs <;> first | omega | skip
  · rfl
  · rw [or_c0 (i / 2 ^ 6) (by omega), or_80 (i % 64) (by omega)]; rfl
  · decide
  · rw [or_e0 (i / 2 ^ 12) (by omega), or_80 (i / 2 ^ 6 % 64) (by omega),
      or_80 (i % 64) (by omega)]; rfl
  · rw [or_f0 (i / 2 ^ 18) (by omega), or_80 (i / 2 ^ 12 % 64) (by omega),
      or_80 (i / 2 ^ 6 % 64) (by omega), or_80 (i % 64) (by omega)]; rfl

theorem utf8_lt (i : Nat) (h : i ≤ 0x10FFFF) : ∀ x ∈ utf8 i, x < 256 := by
  unfold utf8
  split_ifs <;> simp <;> omega

theorem utf8_inj (i k : Nat) (hi : i ≤ 0x10FFFF) (hk : k ≤ 0x10FFFF) (h : utf8 i = utf8 k) :
    i = k := by
  unfold utf8 at h
  split_ifs at h <;> simp at h <;> omega

theorem map_ofNat_inj : ∀ (l m : List Nat), (∀ x ∈ l, x < 256) → (∀ x ∈ m, x < 256) →
    l.map UInt8.ofNat = m.map UInt8.ofNat → l = m
  | [], [], _, _, _ => rfl
  | [], _ :: _, _, _, h => by simp at h
  | _ :: _, [], _, _, h => by simp at h
  | a :: l, b :: m, hl, hm, h => by
    simp only [List.map_cons, List.cons.injEq] at h
    have hab := ofNat_inj (hl a (by simp)) (hm b (by simp)) h.1
    have := map_ofNat_inj l m (fun x hx => hl x (by simp [hx])) (fun x hx => hm x (by simp [hx])) h.2
    rw [hab, this]

theorem scalarOf_le (i : Nat) : scalarOf i ≤ 0x10FFFF := by
  unfold scalarOf; split_ifs <;> omega

theorem encodeRune_inj (r s : Int) (h : encodeRune r = encodeRune s) :
    scalarOf (r % 4294967296).toNat = scalarOf (s % 4294967296).toNat := by
  rw [encodeRune_eq, encodeRune_eq] at h
  exact utf8_inj _ _ (scalarOf_le _) (scalarOf_le _)
    (map_ofNat_inj _ _ (utf8_lt _ (scalarOf_le _)) (utf8_lt _ (scalarOf_le _)) h)

/-- Two integers with the same `string(...)` are equal, or both are turned
into U+FFFD. -/
theorem intString_inj (v w : Int) (h : intString v = intString w) :
    v = w ∨ (IsReplaced v ∧ IsReplaced w) := by
  have hs := encodeRune_inj _ _ h
  unfold scalarOf at hs
  unfold IsReplaced
  split_ifs at hs <;> omega

/-- The integers `string(...)` turns into U+FFFD all give the same bytes. -/
theorem intString_of_IsReplaced (v : Int) (h : IsReplaced v) : intString v = [0xEF, 0xBF, 0xBD] := by
  have h2 : scalarOf ((if -2147483648 ≤ v ∧ v ≤ 2147483647 then v else 0xFFFD) % 4294967296).toNat
      = 0xFFFD := by
    unfold IsReplaced at h
    unfold scalarOf
    split_ifs <;> omega
  unfold intString
  rw [encodeRune_eq, h2]
  decide

/-! ## Mining -/

/-- What the loop of `MineBlock` leaves when it returns: the stored digest is
the digest of the block, it has the prefix, and the four fields the loop does
not write are those of the block it started from. -/
theorem mineLoop_returned {zeros : GoString} {fuel : Nat} {b r : Block}
    (h : Block.mineLoop zeros fuel b = Outcome.returned r) :
    r.Hash = r.CalculateHash ∧ HasPrefix r.Hash zeros = true ∧ r.Index = b.Index ∧
      r.Timestamp = b.Timestamp ∧ r.Data = b.Data ∧ r.PrevHash = b.PrevHash := by
  induction fuel generalizing b with
  | zero => simp [Block.mineLoop] at h
  | succ fuel ih =>
    simp only [Block.mineLoop] at h
    split at h
    · rename_i hp
      cases h
      exact ⟨rfl, hp, rfl, rfl, rfl, rfl⟩
    · have := ih h
      simpa using this

/-- The loop returns within `k + 1` iterations when the digest at the `k`-th
nonce has the prefix. -/
theorem mineLoop_of_hit (zeros : GoString) (k : Nat) (b : Block)
    (h : HasPrefix ({ b with Nonce := nonceAt b.Nonce k } : Block).CalculateHash zeros = true) :
    ∃ r, Block.mineLoop zeros (k + 1) b = Outcome.returned r := by
  induction k generalizing b with
  | zero =>
    have hb : ({ b with Nonce := nonceAt b.Nonce 0 } : Block) = b := rfl
    rw [hb] at h
    exact ⟨{ b with Hash := b.CalculateHash }, by simp [Block.mineLoop, Block.CalculateHash_setHash, h]⟩
  | succ k ih =>
    rw [Block.mineLoop]
    by_cases hp : HasPrefix ({ b with Hash := b.CalculateHash } : Block).Hash zeros = true
    · exact ⟨{ b with Hash := b.CalculateHash }, by simp [hp]⟩
    · simp only [hp, if_false]
      apply ih
      exact h

/-- When the loop returns, the digest at one of the nonces it went through
has the prefix. -/
theorem hit_of_mineLoop (zeros : GoString) (fuel : Nat) (b r : Block)
    (h : Block.mineLoop zeros fuel b = Outcome.returned r) :
    ∃ k, HasPrefix ({ b with Nonce := nonceAt b.Nonce k } : Block).CalculateHash zeros = true := by
  induction fuel generalizing b with
  | zero => simp [Block.mineLoop] at h
  | succ fuel ih =>
    simp only [Block.mineLoop] at h
    split at h
    · rename_i hp
      exact ⟨0, hp⟩
    · obtain ⟨k, hk⟩ := ih _ h
      exact ⟨k + 1, hk⟩

/-- The loop never returns when no digest can have the prefix. -/
theorem mineLoop_running (zeros : GoString) (hz : 64 < zeros.length) (fuel : Nat) (b : Block) :
    Block.mineLoop zeros fuel b = Outcome.running := by
  induction fuel generalizing b with
  | zero => rfl
  | succ fuel ih =>
    have hp : HasPrefix ({ b with Hash := b.CalculateHash } : Block).Hash zeros = false := by
      have hl := Block.CalculateHash_length b
      simp only [HasPrefix, Bool.and_eq_false_imp, decide_eq_true_eq]
      intro hle
      omega
    simp only [Block.mineLoop, hp]
    exact ih _

theorem MineBlock_returned_nonneg {fuel : Nat} {d : Int} {b r : Block}
    (h : b.MineBlock fuel d = Outcome.returned r) : 0 ≤ d := by
  by_contra hd
  have hd2 : d < 0 := by omega
  simp [Block.MineBlock, bytesRepeat_neg d hd2] at h

/-- A call that returns was given a prefix the runtime can allocate. -/
theorem MineBlock_returned_le {fuel : Nat} {d : Int} {b r : Block}
    (h : b.MineBlock fuel d = Outcome.returned r) : d ≤ maxAlloc := by
  by_contra hd
  have hd2 : maxAlloc < d := by omega
  simp [Block.MineBlock, bytesRepeat_big d hd2] at h

theorem MineBlock_eq_mineLoop (fuel : Nat) (d : Int) (hd : 0 ≤ d) (hmax : d ≤ maxAlloc)
    (b : Block) :
    b.MineBlock fuel d = Block.mineLoop (List.replicate d.toNat 48) fuel b := by
  simp [Block.MineBlock, bytesRepeat_zero d hd hmax]

/-- With a prefix too long to allocate the call panics before the loop. -/
theorem MineBlock_panicked (fuel : Nat) (d : Int) (hd : maxAlloc < d) (b : Block) :
    b.MineBlock fuel d = Outcome.panicked := by
  simp [Block.MineBlock, bytesRepeat_big d hd]

/-- With a prefix longer than a digest, and short enough to allocate, the
call is still running after any number of iterations. -/
theorem MineBlock_running (fuel : Nat) (d : Int) (hd : 64 < d) (hmax : d ≤ maxAlloc)
    (b : Block) : b.MineBlock fuel d = Outcome.running := by
  rw [MineBlock_eq_mineLoop fuel d (by omega) hmax]
  apply mineLoop_running
  simp only [List.length_replicate]
  omega

/-- A digest does not begin with more than 64 characters `'0'`. -/
theorem HasPrefix_long (b : Block) (d : Int) (hd : 64 < d) :
    HasPrefix b.CalculateHash (List.replicate d.toNat 48) = false := by
  have hl := Block.CalculateHash_length b
  simp only [HasPrefix, List.length_replicate, Bool.and_eq_false_imp, decide_eq_true_eq]
  intro hle
  omega

theorem wrapInt_of_IsInt {x : Int} (h : IsInt x) : wrapInt x = x := by
  unfold IsInt minInt maxInt at h
  unfold wrapInt
  omega

theorem wrapInt_succ_wrapInt (x : Int) : wrapInt (wrapInt x + 1) = wrapInt (x + 1) := by
  unfold wrapInt
  omega

theorem wrapInt_natCast {i : Nat} (h : (i : Int) ≤ maxInt) : wrapInt i = i := by
  apply wrapInt_of_IsInt
  unfold maxInt at h
  unfold IsInt minInt maxInt
  omega

/-- The run of `MineBlock(1)` on `candidate`: two iterations. -/
theorem candidate_run : candidate.MineBlock 2 1 = Outcome.returned candidateMined := by
  decide

/-- The run of `NewBlockchain` at `clock0`. -/
theorem chain0_run : NewBlockchain clock0 = chain0 := by
  decide

/-- The run of `AddBlock("First Block")` on `chain0`: one iteration of mining. -/
theorem chain1_run :
    chain0.AddBlock 1 clock1 (lit "First Block") = Outcome.returned chain1 := by
  decide

/-- The run of `AddBlock("Second Block")` on `chain1`: one iteration of mining. -/
theorem chain2_run :
    chain1.AddBlock 1 clock2 (lit "Second Block") = Outcome.returned chain2 := by
  decide

/-- The run of `AddBlock("Third Block")` on `chain2`: one iteration of mining. -/
theorem chain3_run :
    chain2.AddBlock 1 clock3 (lit "Third Block") = Outcome.returned chain3 := by
  decide

/-! ## Appending -/

/-- What `AddBlock` has done when it returns. -/
theorem AddBlock_returned {fuel : Nat} {now : Time} {p : GoString} {bc bc2 : Blockchain}
    (h : bc.AddBlock fuel now p = Outcome.returned bc2) :
    ∃ last nb, bc.blocks.getLast? = some last ∧ bc2.blocks = bc.blocks ++ [nb] ∧
      nb.Hash = nb.CalculateHash ∧ HasPrefix nb.Hash [48, 48] = true ∧
      nb.Index = wrapInt (last.Index + 1) ∧ nb.Timestamp = now ∧ nb.Data = p ∧
      nb.PrevHash = last.Hash := by
  unfold Blockchain.AddBlock Blockchain.GetLastBlock at h
  cases hl : bc.blocks.getLast? with
  | none => simp [hl] at h
  | some last =>
    simp only [hl] at h
    split at h
    · rename_i mined hm
      cases h
      rw [MineBlock_eq_mineLoop _ _ (by decide) (by decide)] at hm
      obtain ⟨h1, h2, h3, h4, h5, h6⟩ := mineLoop_returned hm
      exact ⟨last, mined, rfl, rfl, h1, h2, h3, h4, h5, h6⟩
    · cases h
    · cases h

theorem IsValid_append (bc : Blockchain) (last nb : Block)
    (hl : bc.blocks.getLast? = some last) :
    Blockchain.IsValid { blocks := bc.blocks ++ [nb] } =
      (bc.IsValid && decide (nb.Hash = nb.CalculateHash) &&
        decide (nb.PrevHash = last.Hash)) := by
  unfold Blockchain.IsValid
  cases hb : bc.blocks with
  | nil => simp [hb] at hl
  | cons first rest =>
    simp only [List.cons_append]
    rw [validFrom_append]
    have : (first :: rest).getLast (List.cons_ne_nil first rest) = last := by
      rw [hb, List.getLast?_eq_getLast _ (List.cons_ne_nil first rest)] at hl
      exact Option.some.inj hl
    rw [this]

/-- The checks of `IsValid`, position by position. -/
theorem IsValid_iff_positions (bc : Blockchain) :
    bc.IsValid = true ↔
      ∀ (i : Nat) (cur prev : Block), 1 ≤ i → bc.blocks[i]? = some cur →
        bc.blocks[i - 1]? = some prev →
        cur.Hash = cur.CalculateHash ∧ cur.PrevHash = prev.Hash := by
  unfold Blockchain.IsValid
  cases hb : bc.blocks with
  | nil => simp
  | cons first rest =>
    simp only [validFrom_iff]
    constructor
    · intro h i cur prev hi hc hp
      obtain ⟨j, rfl⟩ : ∃ j, i = j + 1 := ⟨i - 1, by omega⟩
      exact h j cur prev hc (by simpa using hp)
    · intro h i cur prev hc hp
      exact h (i + 1) cur prev (by omega) hc (by simpa using hp)

/-- A chain in which the block at a position `i ≥ 1` fails one of the two
checks is rejected. -/
theorem IsValid_false_of_position (bc : Blockchain) (i : Nat) (cur prev : Block) (hi : 1 ≤ i)
    (hc : bc.blocks[i]? = some cur) (hp : bc.blocks[i - 1]? = some prev)
    (hbad : cur.Hash ≠ cur.CalculateHash ∨ cur.PrevHash ≠ prev.Hash) :
    bc.IsValid = false := by
  cases hv : bc.IsValid with
  | false => rfl
  | true =>
    have := (IsValid_iff_positions bc).1 hv i cur prev hi hc hp
    rcases hbad with h | h
    · exact absurd this.1 h
    · exact absurd this.2 h

/-- The block before a position that holds a block. -/
theorem exists_prev {l : List Block} {i : Nat} {cur : Block} (hc : l[i]? = some cur) :
    ∃ prev, l[i - 1]? = some prev := by
  have hlt : i < l.length := by
    by_contra hn
    rw [List.getElem?_eq_none (by omega)] at hc
    cases hc
  exact ⟨l[i - 1], List.getElem?_eq_getElem (by omega)⟩

/-! ## Hexadecimal encoding and the hashed text -/

/-- The value of a hexadecimal digit. -/
theorem hexDigit_inj : ∀ a < 16, ∀ b < 16, hexDigit a = hexDigit b → a = b := by
  decide

theorem nibbles_inj : ∀ a < 256, ∀ b < 256, a >>> 4 = b >>> 4 → a &&& 0x0f = b &&& 0x0f → a = b := by
  intro a ha b hb h1 h2
  have e1 : ∀ x : Nat, x &&& 0x0f = x % 16 := fun x => Nat.and_pow_two_sub_one_eq_mod x 4
  rw [shr_eq_div, shr_eq_div] at h1
  rw [e1, e1] at h2
  omega

theorem hexEncodeToString_inj : ∀ (s t : GoString),
    hexEncodeToString s = hexEncodeToString t → s = t
  | [], [], _ => rfl
  | [], _ :: _, h => by simp [hexEncodeToString] at h
  | _ :: _, [], h => by simp [hexEncodeToString] at h
  | v :: s, w :: t, h => by
    simp only [hexEncodeToString, List.cons.injEq] at h
    obtain ⟨h1, h2, h3⟩ := h
    have hv := UInt8.toNat_lt v
    have hw := UInt8.toNat_lt w
    have e1 : ∀ x : Nat, x &&& 0x0f = x % 16 := fun x => Nat.and_pow_two_sub_one_eq_mod x 4
    have a1 := hexDigit_inj _ (by rw [shr_eq_div]; omega) _ (by rw [shr_eq_div]; omega) h1
    have a2 := hexDigit_inj _ (by rw [e1]; omega) _ (by rw [e1]; omega) h2
    have hvw : v = w := UInt8.ext (nibbles_inj _ hv _ hw a1 a2)
    rw [hvw, hexEncodeToString_inj s t h3]

/-- Two blocks with the same digest and different hashed texts are a SHA-256
collision. -/
theorem CalculateHash_inj_of_no_collision (b c : Block)
    (hnc : b.record ≠ c.record → sha256Sum b.record ≠ sha256Sum c.record)
    (h : b.CalculateHash = c.CalculateHash) : b.record = c.record := by
  by_contra hne
  exact hnc hne (hexEncodeToString_inj _ _ h)

/-- A change that shows in the hashed text changes the hashed text, and
leaves `Hash` as it is. -/
theorem TextChanged.record_ne {b c : Block} (h : TextChanged b c) :
    c.record ≠ b.record ∧ c.Hash = b.Hash := by
  cases h with
  | index v hv hr =>
    refine ⟨?_, rfl⟩
    intro he
    simp only [Block.record, List.append_left_inj] at he
    rcases intString_inj _ _ he with h1 | h1
    · exact hv h1
    · exact hr h1
  | timestamp t ht =>
    refine ⟨?_, rfl⟩
    intro he
    simp only [Block.record, List.append_left_inj, List.append_right_inj] at he
    exact ht he
  | data d hd =>
    refine ⟨?_, rfl⟩
    intro he
    simp only [Block.record, List.append_left_inj, List.append_right_inj] at he
    exact hd he
  | prevHash p hp =>
    refine ⟨?_, rfl⟩
    intro he
    simp only [Block.record, List.append_left_inj, List.append_right_inj] at he
    exact hp he
  | nonce v hv hr =>
    refine ⟨?_, rfl⟩
    intro he
    simp only [Block.record, List.append_right_inj] at he
    rcases intString_inj _ _ he with h1 | h1
    · exact hv h1
    · exact hr h1

/-- The invariant of the chains the program builds. -/
theorem Built_invariant {n : Nat} {bc : Blockchain} (h : Built n bc) :
    bc.IsValid = true ∧ bc.blocks.length = n + 1 ∧
      ∀ (i : Nat) (b : Block), bc.blocks[i]? = some b → b.Index = wrapInt i := by
  induction h with
  | new now =>
    refine ⟨rfl, rfl, ?_⟩
    intro i b hb
    cases i with
    | zero =>
      simp [NewBlockchain] at hb
      subst hb
      rfl
    | succ j => simp [NewBlockchain] at hb
  | @add n bc bc2 fuel now data _ hadd ih =>
    obtain ⟨hv, hlen, hidx⟩ := ih
    obtain ⟨last, nb, hl, hb, hh, -, hi, -, -, hph⟩ := AddBlock_returned hadd
    have hbc2 : bc2 = { blocks := bc.blocks ++ [nb] } := by
      cases bc2
      simp only [Blockchain.mk.injEq]
      exact hb
    have hlast : bc.blocks[n]? = some last := by
      rw [List.getLast?_eq_getElem?, hlen] at hl
      simpa using hl
    refine ⟨?_, ?_, ?_⟩
    · rw [hbc2, IsValid_append bc last nb hl, hv]
      simp [hh, hph]
    · rw [hb]
      simp [hlen]
    · intro i b hib
      rw [hb] at hib
      by_cases hlt : i < bc.blocks.length
      · rw [List.getElem?_append_left hlt] at hib
        exact hidx i b hib
      · have hieq : i = n + 1 := by
          by_contra hne
          have : bc.blocks.length + 1 ≤ i := by omega
          have hnone : (bc.blocks ++ [nb])[i]? = none := by
            apply List.getElem?_eq_none
            simp
            omega
          rw [hnone] at hib
          cases hib
        subst hieq
        have hnb : (bc.blocks ++ [nb])[n + 1]? = some nb := by
          rw [← hlen]
          simp
        rw [hnb] at hib
        cases hib
        rw [hi, hidx n last hlast]
        have := wrapInt_succ_wrapInt (n : Int)
        simpa using this

theorem chain0_built : Built 0 chain0 := by
  rw [← chain0_run]
  exact Built.new clock0

/-- The concrete run builds `chain1`. -/
theorem chain1_built : Built 1 chain1 :=
  Built.add 1 clock1 (lit "First Block") chain0_built chain1_run

/-- The concrete run builds `chain3`. -/
theorem chain3_built : Built 3 chain3 :=
  Built.add 1 clock3 (lit "Third Block")
    (Built.add 1 clock2 (lit "Second Block") chain1_built chain2_run) chain3_run

/-- The first block of a chain enters the checks of `IsValid` through its
`Hash` alone. -/
theorem IsValid_cons_congr (g g2 : Block) (rest : List Block) (h : g2.Hash = g.Hash) :
    Blockchain.IsValid { blocks := g2 :: rest } = Blockchain.IsValid { blocks := g :: rest } := by
  unfold Blockchain.IsValid
  cases rest with
  | nil => rfl
  | cons c l => simp only [validFrom_cons, h]

/-- The digests of the texts of `block2Edited` and of `block2` differ. -/
theorem block2Edited_digest :
    sha256Sum block2Edited.record ≠ sha256Sum block2.record := by
  decide

/-- The index `AddBlock` gives the new block when the last block has the
largest index an `int` can hold: the smallest `int`. -/
theorem AddBlock_index_wraps {fuel : Nat} {now : Time} {p : GoString} {bc bc2 : Blockchain}
    {last : Block} (hl : bc.blocks.getLast? = some last) (hmax : last.Index = maxInt)
    (h : bc.AddBlock fuel now p = Outcome.returned bc2) :
    ∃ nb, bc2.blocks.getLast? = some nb ∧ nb.Index = minInt := by
  obtain ⟨last2, nb, hl2, hb, -, -, hi, -, -, -⟩ := AddBlock_returned h
  rw [hl] at hl2
  cases hl2
  exact ⟨nb, by simp [hb], by rw [hi, hmax]; decide⟩

/-! ## The nonces of the mining loop -/

theorem wrapInt_add_wrapInt (x y : Int) : wrapInt (wrapInt x + y) = wrapInt (x + y) := by
  unfold wrapInt
  omega

/-- The nonce after at least one increment, in closed form. -/
theorem nonceAt_succ (n0 : Int) (k : Nat) : nonceAt n0 (k + 1) = wrapInt (n0 + (k + 1 : Nat)) := by
  induction k generalizing n0 with
  | zero => simp [nonceAt]
  | succ k ih =>
    rw [nonceAt, ih, wrapInt_add_wrapInt]
    congr 1
    push_cast
    ring

/-- The nonce after `k` increments of an `int`, in closed form. -/
theorem nonceAt_eq (n0 : Int) (h : IsInt n0) (k : Nat) : nonceAt n0 k = wrapInt (n0 + k) := by
  cases k with
  | zero => simp [nonceAt, wrapInt_of_IsInt h]
  | succ k => exact nonceAt_succ n0 k

/-- The loop overwrites `Hash` before it reads it. -/
theorem mineLoop_setHash (zeros : GoString) (fuel : Nat) (b : Block) (h : GoString) :
    Block.mineLoop zeros fuel { b with Hash := h } = Block.mineLoop zeros fuel b := by
  cases fuel with
  | zero => rfl
  | succ fuel => rfl

/-- The loop goes past the nonces whose digest does not have the prefix. -/
theorem mineLoop_skip (zeros : GoString) (k fuel : Nat) (b : Block)
    (hfail : ∀ j, j < k →
      HasPrefix ({ b with Nonce := nonceAt b.Nonce j } : Block).CalculateHash zeros = false) :
    Block.mineLoop zeros (k + fuel) b =
      Block.mineLoop zeros fuel { b with Nonce := nonceAt b.Nonce k } := by
  induction k generalizing b with
  | zero =>
    simp only [Nat.zero_add]
    rfl
  | succ k ih =>
    have h0 : HasPrefix ({ b with Hash := b.CalculateHash } : Block).Hash zeros = false :=
      hfail 0 (Nat.succ_pos k)
    rw [show k + 1 + fuel = (k + fuel) + 1 by omega, Block.mineLoop]
    simp only [h0, Bool.false_eq_true, if_false]
    rw [ih]
    · exact mineLoop_setHash zeros fuel { b with Nonce := nonceAt b.Nonce (k + 1) }
        b.CalculateHash
    · intro j hj
      exact hfail (j + 1) (by omega)

/-- When the loop returns it has gone past `k` nonces whose digest does not
have the prefix, for some `k` below the number of iterations, and it leaves
the block at the next nonce with the digest at that nonce, which has the
prefix. -/
theorem mineLoop_returned_at {zeros : GoString} {fuel : Nat} {b r : Block}
    (h : Block.mineLoop zeros fuel b = Outcome.returned r) :
    ∃ k, k < fuel ∧
      r = { b with Nonce := nonceAt b.Nonce k,
                   Hash := ({ b with Nonce := nonceAt b.Nonce k } : Block).CalculateHash } ∧
      HasPrefix ({ b with Nonce := nonceAt b.Nonce k } : Block).CalculateHash zeros = true ∧
      ∀ j, j < k →
        HasPrefix ({ b with Nonce := nonceAt b.Nonce j } : Block).CalculateHash zeros = false := by
  induction fuel generalizing b with
  | zero => simp [Block.mineLoop] at h
  | succ fuel ih =>
    simp only [Block.mineLoop] at h
    split at h
    · rename_i hp
      cases h
      exact ⟨0, Nat.succ_pos fuel, rfl, hp, fun j hj => absurd hj (Nat.not_lt_zero j)⟩
    · rename_i hp
      obtain ⟨k, hk, hr, hhit, hfail⟩ := ih h
      refine ⟨k + 1, by omega, hr, hhit, ?_⟩
      intro j hj
      cases j with
      | zero => simpa using hp
      | succ j => exact hfail j (by omega)

/-- The digest of `candidateAtMax` does not begin with `'0'`. -/
theorem candidateAtMax_fails : HasPrefix candidateAtMax.CalculateHash [48] = false := by
  decide

/-- The digest of `block0Edited` is not the `Hash` it stores. -/
theorem block0Edited_digest : block0Edited.Hash ≠ block0Edited.CalculateHash := by
  decide

/-- A block whose `Nonce` is turned into U+FFFD has the digest of any other
such block with the same other fields. -/
theorem CalculateHash_of_IsReplaced (b : Block) (n m : Int) (hn : IsReplaced n)
    (hm : IsReplaced m) :
    ({ b with Nonce := n } : Block).CalculateHash = ({ b with Nonce := m } : Block).CalculateHash := by
  apply Block.CalculateHash_congr
  simp only [Block.record, intString_of_IsReplaced n hn, intString_of_IsReplaced m hm]

/-- The run of `MineBlock(1)` on `candidateAtMax`: the nonce goes from the
largest `int` to the smallest, through the negative integers, all of which
`string(...)` turns into U+FFFD, and on to 0 and 1. -/
theorem candidateAtMax_run :
    candidateAtMax.MineBlock 9223372036854775811 1 = Outcome.returned candidateMined := by
  rw [MineBlock_eq_mineLoop _ 1 (by decide) (by decide)]
  have hfuel : (9223372036854775811 : Nat) = 9223372036854775809 + 2 := by norm_num
  rw [hfuel, mineLoop_skip]
  · have hn : nonceAt candidateAtMax.Nonce 9223372036854775809 = 0 := by
      rw [nonceAt_eq _ (by decide)]
      decide
    rw [hn]
    have hc : ({ candidateAtMax with Nonce := 0 } : Block) = candidate := rfl
    rw [hc, ← MineBlock_eq_mineLoop _ 1 (by decide) (by decide)]
    exact candidate_run
  · intro j hj
    have hrep : IsReplaced (nonceAt candidateAtMax.Nonce j) := by
      rw [nonceAt_eq _ (by decide)]
      have hm : candidateAtMax.Nonce = 9223372036854775807 := rfl
      rw [hm]
      unfold IsReplaced wrapInt
      omega
    have hmax : IsReplaced candidateAtMax.Nonce := by
      have hm : candidateAtMax.Nonce = 9223372036854775807 := rfl
      rw [hm]
      unfold IsReplaced
      omega
    rw [CalculateHash_of_IsReplaced candidateAtMax _ candidateAtMax.Nonce hrep hmax]
    exact candidateAtMax_fails

/-- The digits `hex.EncodeToString` writes. -/
theorem hexDigit_isHexDigit : ∀ n < 16, IsHexDigit (hexDigit n) := by
  unfold IsHexDigit
  decide

theorem hexEncodeToString_digits : ∀ (s : GoString), ∀ c ∈ hexEncodeToString s, IsHexDigit c
  | [], c, h => by simp [hexEncodeToString] at h
  | v :: rest, c, h => by
    have hv := UInt8.toNat_lt v
    have e1 : v.toNat &&& 0x0f = v.toNat % 16 := Nat.and_pow_two_sub_one_eq_mod v.toNat 4
    simp only [hexEncodeToString, List.mem_cons] at h
    rcases h with h | h | h
    · rw [h]
      exact hexDigit_isHexDigit _ (by rw [shr_eq_div]; omega)
    · rw [h]
      exact hexDigit_isHexDigit _ (by rw [e1]; omega)
    · exact hexEncodeToString_digits rest c h

/-- The bytes of `string(v)` for a valid code point. -/
theorem intString_of_valid (v : Int) (h : ¬ IsInvalidRune v) :
    intString v = (utf8 v.toNat).map UInt8.ofNat := by
  unfold IsInvalidRune at h
  have h2 : scalarOf ((if -2147483648 ≤ v ∧ v ≤ 2147483647 then v else 0xFFFD) % 4294967296).toNat
      = v.toNat := by
    unfold scalarOf
    split_ifs <;> omega
  unfold intString
  rw [encodeRune_eq, h2]

/-- The blocks the program mines carry the proof of work of difficulty 2. -/
theorem Built_mined {n : Nat} {bc : Blockchain} (h : Built n bc) :
    ∀ (i : Nat) (b : Block), 1 ≤ i → bc.blocks[i]? = some b → HasPrefix b.Hash [48, 48] = true := by
  induction h with
  | new now =>
    intro i b hi hb
    cases i with
    | zero => omega
    | succ j => simp [NewBlockchain] at hb
  | @add n bc bc2 fuel now data hbuilt hadd ih =>
    obtain ⟨last, nb, hl, hb2, -, hp, -, -, -, -⟩ := AddBlock_returned hadd
    intro i b hi hb
    rw [hb2] at hb
    by_cases hlt : i < bc.blocks.length
    · rw [List.getElem?_append_left hlt] at hb
      exact ih i b hi hb
    · rw [List.getElem?_append_right (by omega)] at hb
      cases hk : i - bc.blocks.length with
      | zero =>
        rw [hk] at hb
        simp only [List.getElem?_cons_zero, Option.some.injEq] at hb
        rw [← hb]
        exact hp
      | succ j =>
        rw [hk] at hb
        simp at hb

/-! ## The claims -/

/-- C1: every chain obtained from `NewBlockchain` by `n ≥ 0` calls of
`AddBlock` that each returned (any payloads, any clock readings) is accepted
by `IsValid`, has `n + 1` blocks, and its block at position `i` has
`Index == i` for every position `i` (a position is a Go `int`; in general the
index is `i` reduced to an `int`). -/
theorem C1_built_chain_valid_and_indexed (n : Nat) (bc : Blockchain) (h : Built n bc) :
    bc.IsValid = true ∧ bc.blocks.length = n + 1 ∧
      ∀ (i : Nat) (b : Block), bc.blocks[i]? = some b →
        b.Index = wrapInt i ∧ ((i : Int) ≤ maxInt → b.Index = i) := by
  obtain ⟨hv, hlen, hidx⟩ := Built_invariant h
  refine ⟨hv, hlen, ?_⟩
  intro i b hb
  refine ⟨hidx i b hb, ?_⟩
  intro hi
  rw [hidx i b hb, wrapInt_natCast hi]

/-- C1 at the scenario of the specification: genesis and three mined blocks. -/
theorem C1_witness :
    Built 3 chain3 ∧ chain3.IsValid = true ∧ chain3.blocks.length = 4 ∧
      chain3.blocks.map Block.Index = [0, 1, 2, 3] :=
  ⟨chain3_built,
   (C1_built_chain_valid_and_indexed 3 chain3 chain3_built).1,
   (C1_built_chain_valid_and_indexed 3 chain3 chain3_built).2.1, rfl⟩

/-- Tampering that `IsValid` detects: in every chain built by `NewBlockchain`
and `AddBlock` calls, at every position `i ≥ 1`, a change of one hashed field
of the block that shows in the text `CalculateHash` hashes (any change of
`Data` or `PrevHash`, a change of `Timestamp` to a value with another
`String()`, a change of `Index` or `Nonce` unless `string(...)` turns both
the old and the new value into U+FFFD), with `Hash` left as it is, makes
`IsValid` return false, unless the old and the new text are a SHA-256
collision. -/
theorem tampering_detected (n : Nat) (bc : Blockchain) (h : Built n bc) (i : Nat)
    (cur b2 : Block) (hi : 1 ≤ i) (hc : bc.blocks[i]? = some cur) (ht : TextChanged cur b2)
    (hnc : b2.record ≠ cur.record → sha256Sum b2.record ≠ sha256Sum cur.record) :
    Blockchain.IsValid { blocks := bc.blocks.set i b2 } = false := by
  obtain ⟨prev, hp⟩ := exists_prev hc
  have hv := (Built_invariant h).1
  have hcur := ((IsValid_iff_positions bc).1 hv i cur prev hi hc hp).1
  obtain ⟨hrec, hhash⟩ := ht.record_ne
  have hlt : i < bc.blocks.length := by
    by_contra hn
    rw [List.getElem?_eq_none (by omega)] at hc
    cases hc
  apply IsValid_false_of_position _ i b2 prev hi
  · show (bc.blocks.set i b2)[i]? = some b2
    exact List.getElem?_set_self hlt
  · show (bc.blocks.set i b2)[i - 1]? = some prev
    rw [List.getElem?_set_ne (by omega)]
    exact hp
  · left
    intro he
    apply hrec
    apply CalculateHash_inj_of_no_collision b2 cur hnc
    rw [← he, hhash, hcur]

/-- The scenario of the specification: the last character of the `Data` of
the block at position 2 is changed, and `IsValid` returns false. -/
theorem tampering_detected_scenario :
    Built 3 chain3 ∧ TextChanged block2 block2Edited ∧
      Blockchain.IsValid { blocks := chain3.blocks.set 2 block2Edited } = false :=
  ⟨chain3_built, TextChanged.data (lit "Second Blocl") (by decide),
   tampering_detected 3 chain3 chain3_built 2 block2 block2Edited (by decide) rfl
     (TextChanged.data (lit "Second Blocl") (by decide)) (fun _ => block2Edited_digest)⟩

/-- The loop of `IsValid` reads the block before the first position through
its `Hash` alone. -/
theorem validFrom_hash_congr (p p2 : Block) (l : List Block) (h : p2.Hash = p.Hash) :
    Blockchain.validFrom p2 l = Blockchain.validFrom p l := by
  cases l with
  | nil => rfl
  | cons c l => simp only [validFrom_cons, h]

/-- The loop of `IsValid` reads a block through its `Hash`, its `PrevHash`
and its digest alone. -/
theorem validFrom_set (p : Block) (l : List Block) (i : Nat) (cur b2 : Block)
    (hc : l[i]? = some cur) (hH : b2.Hash = cur.Hash) (hP : b2.PrevHash = cur.PrevHash)
    (hC : b2.CalculateHash = cur.CalculateHash) :
    Blockchain.validFrom p (l.set i b2) = Blockchain.validFrom p l := by
  induction l generalizing p i with
  | nil => rfl
  | cons c l ih =>
    cases i with
    | zero =>
      simp only [List.getElem?_cons_zero, Option.some.injEq] at hc
      subst hc
      simp only [List.set_cons_zero, validFrom_cons, hH, hP, hC]
      rw [validFrom_hash_congr c b2 l hH]
    | succ j =>
      simp only [List.getElem?_cons_succ] at hc
      simp only [List.set_cons_succ, validFrom_cons]
      rw [ih c j hc]

/-- Replacing a block of a chain by one with the same `Hash`, `PrevHash` and
digest does not change what `IsValid` returns. -/
theorem IsValid_set_same_digest (bc : Blockchain) (i : Nat) (cur b2 : Block)
    (hc : bc.blocks[i]? = some cur) (hH : b2.Hash = cur.Hash)
    (hP : b2.PrevHash = cur.PrevHash) (hC : b2.CalculateHash = cur.CalculateHash) :
    Blockchain.IsValid { blocks := bc.blocks.set i b2 } = bc.IsValid := by
  unfold Blockchain.IsValid
  cases hb : bc.blocks with
  | nil => rfl
  | cons first rest =>
    rw [hb] at hc
    cases i with
    | zero =>
      simp only [List.getElem?_cons_zero, Option.some.injEq] at hc
      subst hc
      simp only [List.set_cons_zero]
      exact validFrom_hash_congr first b2 rest hH
    | succ j =>
      simp only [List.getElem?_cons_succ] at hc
      simp only [List.set_cons_succ]
      exact validFrom_set first rest j cur b2 hc hH hP hC

/-- In a chain the program builds, the block at a position in the surrogate
range 0xD800-0xDFFF has an index `string(...)` turns into U+FFFD. -/
theorem Built_index_replaced {n : Nat} {bc : Blockchain} (h : Built n bc) (i : Nat)
    (cur : Block) (hc : bc.blocks[i]? = some cur) (hlo : 0xD800 ≤ i) (hhi : i ≤ 0xDFFF) :
    cur.Index = i ∧ IsReplaced cur.Index := by
  have hidx := (Built_invariant h).2.2 i cur hc
  have hw : wrapInt (i : Int) = i := wrapInt_natCast (by unfold maxInt; omega)
  rw [hw] at hidx
  refine ⟨hidx, ?_⟩
  rw [hidx]
  unfold IsReplaced
  omega

/-- The chain `chainD800` is one `IsValid` accepts. -/
theorem chainD800_valid : chainD800.IsValid = true := by
  decide

/-- C2, where the code fails it: when `string(...)` turns the `Index` of a
block into U+FFFD, changing that `Index` to another value it turns into
U+FFFD, with `Hash` left as it is, changes neither the hashed text nor the
digest, and `IsValid` returns what it returned before: true in every chain
the program builds.  (In a built chain these are the blocks at the positions
0xD800-0xDFFF, `Built_index_replaced`.) -/
theorem C2_replaced_index_change_undetected (bc : Blockchain) (i : Nat) (cur : Block)
    (v : Int) (hc : bc.blocks[i]? = some cur) (hne : v ≠ cur.Index)
    (h1 : IsReplaced cur.Index) (h2 : IsReplaced v) :
    FieldChanged cur { cur with Index := v } ∧
      ({ cur with Index := v } : Block).CalculateHash = cur.CalculateHash ∧
      Blockchain.IsValid { blocks := bc.blocks.set i { cur with Index := v } } = bc.IsValid ∧
      ∀ n, Built n bc →
        Blockchain.IsValid { blocks := bc.blocks.set i { cur with Index := v } } = true := by
  have hrec : ({ cur with Index := v } : Block).record = cur.record := by
    simp only [Block.record, intString_of_IsReplaced v h2, intString_of_IsReplaced _ h1]
  have hC := Block.CalculateHash_congr hrec
  have hset := IsValid_set_same_digest bc i cur { cur with Index := v } hc rfl rfl hC
  refine ⟨FieldChanged.index v hne, hC, hset, ?_⟩
  intro n hb
  rw [hset]
  exact (Built_invariant hb).1

/-- C2 fails at `chainD800`: the `Index` of its block at position 1 is changed
from 0xD800 to 0xD801 and `IsValid` still returns true. -/
theorem C2_witness :
    chainD800.blocks[1]? = some blockD800 ∧ chainD800.IsValid = true ∧
      Blockchain.IsValid
        { blocks := chainD800.blocks.set 1 { blockD800 with Index := 55297 } } = true :=
  ⟨rfl, chainD800_valid,
   ((C2_replaced_index_change_undetected chainD800 1 blockD800 55297 rfl (by decide)
      (by unfold IsReplaced; decide) (by unfold IsReplaced; decide)).2.2.1).trans
     chainD800_valid⟩

/-- C3, as stated, fails at position 0: in the valid chain of the concrete run
the `PrevHash` of the genesis block is replaced (the correct value is the
empty string) and `IsValid` still returns true, with `Hash` left as it is; and
in the chain `NewBlockchain` returns it still returns true with `Hash`
recomputed. -/
theorem C3_counterexample :
    chain1.IsValid = true ∧ chain1.blocks = [block0, block1] ∧ block0.PrevHash = [] ∧
    Blockchain.IsValid { blocks := [{ block0 with PrevHash := lit "00" }, block1] } = true ∧
    chain0.IsValid = true ∧ chain0.blocks = [block0] ∧
    Blockchain.IsValid
      { blocks := [{ block0 with
                      PrevHash := lit "00",
                      Hash := ({ block0 with PrevHash := lit "00" } : Block).CalculateHash }] }
      = true := by
  have hv : chain1.IsValid = true := (Built_invariant chain1_built).1
  refine ⟨hv, rfl, rfl, ?_, rfl, rfl, rfl⟩
  exact (IsValid_cons_congr block0 { block0 with PrevHash := lit "00" } [block1] rfl).trans hv

/-- C3, amended: in every chain, at every position `i ≥ 1`, replacing the
`PrevHash` of the block with a value different from `blocks[i-1].Hash` makes
`IsValid` return false, whatever is stored as the block's `Hash` (left as it
is, or recomputed); the `PrevHash` of the block at position 0 is not
checked. -/
theorem C3_wrong_link_detected (bc : Blockchain) (i : Nat) (cur prev : Block)
    (p hash : GoString) (hi : 1 ≤ i) (hc : bc.blocks[i]? = some cur)
    (hp : bc.blocks[i - 1]? = some prev) (hne : p ≠ prev.Hash) :
    Blockchain.IsValid { blocks := bc.blocks.set i { cur with PrevHash := p, Hash := hash } }
      = false := by
  have hlt : i < bc.blocks.length := by
    by_contra hn
    rw [List.getElem?_eq_none (by omega)] at hc
    cases hc
  apply IsValid_false_of_position _ i { cur with PrevHash := p, Hash := hash } prev hi
  · exact List.getElem?_set_self hlt
  · show (bc.blocks.set i _)[i - 1]? = some prev
    rw [List.getElem?_set_ne (by omega)]
    exact hp
  · right
    exact hne

/-- C3 amended, at the concrete run: the `PrevHash` of the block at position 1
is replaced and its `Hash` recomputed. -/
theorem C3_witness :
    Blockchain.IsValid
      { blocks := chain1.blocks.set 1
          { block1 with PrevHash := lit "00",
                        Hash := ({ block1 with PrevHash := lit "00" } : Block).CalculateHash } }
      = false :=
  C3_wrong_link_detected chain1 1 block1 _ (lit "00") _ (le_refl 1) rfl rfl (by decide)

/-- C4: whenever `MineBlock(d)` returns, `d` is not negative, the stored `Hash`
has at least `d` characters and its first `d` characters are all `'0'` (the
byte 48). -/
theorem C4_mined_hash_starts_with_zeros (fuel : Nat) (d : Int) (b r : Block)
    (h : b.MineBlock fuel d = Outcome.returned r) :
    0 ≤ d ∧ d.toNat ≤ r.Hash.length ∧ r.Hash.take d.toNat = List.replicate d.toNat 48 := by
  have hd := MineBlock_returned_nonneg h
  rw [MineBlock_eq_mineLoop fuel d hd (MineBlock_returned_le h)] at h
  have hp := (mineLoop_returned h).2.1
  rw [HasPrefix_iff] at hp
  simpa using And.intro hd hp

/-- C4 at a run of two iterations at difficulty 1. -/
theorem C4_witness :
    candidate.MineBlock 2 1 = Outcome.returned candidateMined ∧
      (1 : Int).toNat ≤ candidateMined.Hash.length ∧
      candidateMined.Hash.take (1 : Int).toNat = List.replicate (1 : Int).toNat 48 :=
  ⟨candidate_run, (C4_mined_hash_starts_with_zeros 2 1 candidate candidateMined candidate_run).2⟩

/-- C5: whenever `MineBlock(d)` returns, the stored `Hash` equals
`CalculateHash` recomputed from the final `Index`, `Timestamp`, `Data`,
`PrevHash` and `Nonce` of the block. -/
theorem C5_mined_hash_is_digest (fuel : Nat) (d : Int) (b r : Block)
    (h : b.MineBlock fuel d = Outcome.returned r) :
    r.Hash = r.CalculateHash ∧
      r.Hash = ({ Index := r.Index, Timestamp := r.Timestamp, Data := r.Data,
                  PrevHash := r.PrevHash, Hash := [], Nonce := r.Nonce } : Block).CalculateHash := by
  have hd := MineBlock_returned_nonneg h
  rw [MineBlock_eq_mineLoop fuel d hd (MineBlock_returned_le h)] at h
  exact ⟨(mineLoop_returned h).1, (mineLoop_returned h).1⟩

/-- C5 at a run of two iterations at difficulty 1. -/
theorem C5_witness :
    candidate.MineBlock 2 1 = Outcome.returned candidateMined ∧
      candidateMined.Hash = candidateMined.CalculateHash :=
  ⟨candidate_run, (C5_mined_hash_is_digest 2 1 candidate candidateMined candidate_run).1⟩

/-- C6, as stated, fails: at difficulty 65 the call on `candidate` is still
running after any number of iterations (a digest has 64 characters). -/
theorem C6_counterexample : ¬ ∃ fuel : Nat, candidate.MineBlock fuel 65 ≠ Outcome.running := by
  rintro ⟨fuel, h⟩
  apply h
  rw [MineBlock_eq_mineLoop fuel 65 (by decide) (by decide)]
  exact mineLoop_running _ (by simp) fuel candidate

/-- C6, amended: for `d ≥ 0`, `MineBlock(d)` returns exactly when the digest of
the block at one of the nonces the loop goes through (`Nonce`, `Nonce + 1`, ...
in Go's `int`) starts with `d` characters `'0'`; at `d = 0` it returns in the
first iteration; at `d > 64` it never returns: it is still running after any
number of iterations, or, when the prefix of `d` bytes is more than the
runtime allocates (`d > 2^48`), it has panicked in `bytes.Repeat`. -/
theorem C6_mining_returns_iff (b : Block) (d : Int) (hd : 0 ≤ d) :
    ((∃ fuel r, b.MineBlock fuel d = Outcome.returned r) ↔
      ∃ k, HasPrefix ({ b with Nonce := nonceAt b.Nonce k } : Block).CalculateHash
        (List.replicate d.toNat 48) = true) ∧
    (d = 0 → ∃ r, b.MineBlock 1 d = Outcome.returned r) ∧
    (64 < d → ∀ fuel,
      b.MineBlock fuel d = (if d ≤ maxAlloc then Outcome.running else Outcome.panicked)) := by
  refine ⟨⟨?_, ?_⟩, ?_, ?_⟩
  · rintro ⟨fuel, r, h⟩
    rw [MineBlock_eq_mineLoop fuel d hd (MineBlock_returned_le h)] at h
    exact hit_of_mineLoop _ fuel b r h
  · rintro ⟨k, hk⟩
    have hmax : d ≤ maxAlloc := by
      by_contra hbig
      have h64 : 64 < d := by
        unfold maxAlloc at hbig
        omega
      rw [HasPrefix_long _ d h64] at hk
      cases hk
    obtain ⟨r, hr⟩ := mineLoop_of_hit _ k b hk
    exact ⟨k + 1, r, by rw [MineBlock_eq_mineLoop _ d hd hmax]; exact hr⟩
  · intro h0
    subst h0
    obtain ⟨r, hr⟩ := mineLoop_of_hit (List.replicate (0 : Int).toNat 48) 0 b (by simp [HasPrefix])
    exact ⟨r, by rw [MineBlock_eq_mineLoop _ 0 hd (by decide)]; exact hr⟩
  · intro h64 fuel
    by_cases hmax : d ≤ maxAlloc
    · rw [if_pos hmax]
      exact MineBlock_running fuel d h64 hmax b
    · rw [if_neg hmax]
      exact MineBlock_panicked fuel d (by omega) b

/-- C6 amended, at difficulty 1 on `candidate`. -/
theorem C6_witness :
    (0 : Int) ≤ 1 ∧ ∃ fuel r, candidate.MineBlock fuel 1 = Outcome.returned r :=
  ⟨by decide,
   ((C6_mining_returns_iff candidate 1 (by decide)).1).2
     (hit_of_mineLoop _ 2 candidate candidateMined
       (by rw [← MineBlock_eq_mineLoop 2 1 (by decide) (by decide)]; exact candidate_run))⟩

/-- C7: after `AddBlock(p)` returns on a chain with at least one block, the
chain is the former chain followed by one new block, which is its last
element; the `Data` of the new block is `p`, its `Index` is the former last
block's `Index + 1` (the sum Go's `int` computes, which is the integer
successor whenever the former index is an `int` below the largest one), its
`PrevHash` is the former last block's `Hash`, and its `Hash` begins with two
characters `'0'`. -/
theorem C7_AddBlock_appends_sealed_block (fuel : Nat) (now : Time) (p : GoString)
    (bc bc2 : Blockchain) (hne : bc.blocks ≠ [])
    (h : bc.AddBlock fuel now p = Outcome.returned bc2) :
    ∃ nb, bc2.blocks = bc.blocks ++ [nb] ∧ bc2.blocks.getLast? = some nb ∧ nb.Data = p ∧
      nb.Index = wrapInt ((bc.blocks.getLast hne).Index + 1) ∧
      (IsInt (bc.blocks.getLast hne).Index → (bc.blocks.getLast hne).Index < maxInt →
        nb.Index = (bc.blocks.getLast hne).Index + 1) ∧
      nb.PrevHash = (bc.blocks.getLast hne).Hash ∧ nb.Hash.take 2 = [48, 48] := by
  obtain ⟨last, nb, hl, hb, -, hp, hi, -, hd, hph⟩ := AddBlock_returned h
  have hlast : bc.blocks.getLast hne = last := by
    rw [List.getLast?_eq_getLast _ hne] at hl
    exact Option.some.inj hl
  rw [hlast]
  refine ⟨nb, hb, by simp [hb], hd, hi, ?_, hph, ?_⟩
  · intro hint hlt
    rw [hi]
    apply wrapInt_of_IsInt
    unfold IsInt minInt maxInt at *
    omega
  · rw [HasPrefix_iff] at hp
    exact hp.2

/-- C7 at the first `AddBlock` of the concrete run. -/
theorem C7_witness :
    chain0.blocks ≠ [] ∧ chain1.blocks.getLast? = some block1 ∧
      ∃ nb, chain1.blocks = chain0.blocks ++ [nb] ∧ nb.Hash.take 2 = [48, 48] :=
  ⟨by simp [chain0, NewBlockchain], by simp [chain1],
   (C7_AddBlock_appends_sealed_block 1 clock1 (lit "First Block") chain0 chain1
      (by simp [chain0, NewBlockchain]) chain1_run).imp
     (fun _ hnb => ⟨hnb.1, hnb.2.2.2.2.2.2⟩)⟩

/-- C8: `IsValid` returns true if and only if, at every position `i` with
`1 ≤ i < len(blocks)`, `blocks[i].Hash` equals `CalculateHash` of `blocks[i]`
and `blocks[i].PrevHash` equals `blocks[i-1].Hash`; it returns true for every
chain with zero or one block. -/
theorem C8_IsValid_iff (bc : Blockchain) :
    (bc.IsValid = true ↔
      ∀ (i : Nat) (cur prev : Block), 1 ≤ i → bc.blocks[i]? = some cur →
        bc.blocks[i - 1]? = some prev →
        cur.Hash = cur.CalculateHash ∧ cur.PrevHash = prev.Hash) ∧
    (bc.blocks.length ≤ 1 → bc.IsValid = true) := by
  refine ⟨IsValid_iff_positions bc, ?_⟩
  intro hlen
  rw [IsValid_iff_positions]
  intro i cur prev hi hc
  have : i < bc.blocks.length := by
    by_contra hn
    rw [List.getElem?_eq_none (by omega)] at hc
    cases hc
  omega

/-- C9: for every clock reading, `IsValid` returns true on the chain
`NewBlockchain` returns. -/
theorem C9_new_chain_is_valid (now : Time) : (NewBlockchain now).IsValid = true := rfl

/-- C10: `NewBlockchain` returns a chain with exactly one block, whose `Index`
is 0, `PrevHash` is the empty string, `Nonce` is 0, `Data` is "Genesis Block",
`Timestamp` is the clock reading, and whose `Hash` is `CalculateHash` of those
fields as they are: the digest at nonce 0, whatever its first characters. -/
theorem C10_genesis_block (now : Time) :
    ∃ g : Block, (NewBlockchain now).blocks = [g] ∧ g.Index = 0 ∧ g.PrevHash = [] ∧
      g.Nonce = 0 ∧ g.Data = lit "Genesis Block" ∧ g.Timestamp = now ∧
      g.Hash = g.CalculateHash ∧
      g.Hash = ({ Index := 0, Timestamp := now, Data := lit "Genesis Block", PrevHash := [],
                  Hash := [], Nonce := 0 } : Block).CalculateHash :=
  ⟨_, rfl, rfl, rfl, rfl, rfl, rfl, rfl, rfl⟩

/-- C11: `AddBlock` is append-only: after it returns (the chain then had at
least one block), the chain has exactly one block more, and every block of the
former chain is at the same position, the same value in all six fields
(`Index`, `Timestamp`, `Data`, `PrevHash`, `Hash`, `Nonce`). -/
theorem C11_AddBlock_append_only (fuel : Nat) (now : Time) (p : GoString)
    (bc bc2 : Blockchain) (h : bc.AddBlock fuel now p = Outcome.returned bc2) :
    bc.blocks ≠ [] ∧ bc2.blocks.length = bc.blocks.length + 1 ∧
      bc2.blocks.take bc.blocks.length = bc.blocks ∧
      ∀ (i : Nat) (b : Block), bc.blocks[i]? = some b →
        ∃ b2, bc2.blocks[i]? = some b2 ∧ b2.Index = b.Index ∧ b2.Timestamp = b.Timestamp ∧
          b2.Data = b.Data ∧ b2.PrevHash = b.PrevHash ∧ b2.Hash = b.Hash ∧ b2.Nonce = b.Nonce := by
  obtain ⟨last, nb, hl, hb, -⟩ := AddBlock_returned h
  rw [hb]
  refine ⟨?_, by simp, by simp, ?_⟩
  · intro hnil
    rw [hnil] at hl
    cases hl
  intro i b hib
  have hlt : i < bc.blocks.length := by
    by_contra hn
    rw [List.getElem?_eq_none (by omega)] at hib
    cases hib
  exact ⟨b, by rw [List.getElem?_append_left hlt]; exact hib, rfl, rfl, rfl, rfl, rfl, rfl⟩

/-- C11 at the first `AddBlock` of the concrete run. -/
theorem C11_witness :
    chain0.blocks ≠ [] ∧ chain1.blocks.length = chain0.blocks.length + 1 ∧
      chain1.blocks.take chain0.blocks.length = chain0.blocks :=
  ⟨(C11_AddBlock_append_only 1 clock1 (lit "First Block") chain0 chain1 chain1_run).1,
   (C11_AddBlock_append_only 1 clock1 (lit "First Block") chain0 chain1 chain1_run).2.1,
   (C11_AddBlock_append_only 1 clock1 (lit "First Block") chain0 chain1 chain1_run).2.2.1⟩

/-- C12, as stated, fails: `splitEarly` and `splitLate` differ in `Data` and in
`PrevHash`, and `CalculateHash` hashes the same text for both (the fields are
concatenated without a separator), so their digests are equal. -/
theorem C12_counterexample :
    splitEarly.Data ≠ splitLate.Data ∧ splitEarly.PrevHash ≠ splitLate.PrevHash ∧
      splitEarly.record = splitLate.record ∧
      splitEarly.CalculateHash = splitLate.CalculateHash := by
  have hrec : splitEarly.record = splitLate.record := by decide
  exact ⟨by decide, by decide, hrec, Block.CalculateHash_congr hrec⟩

/-- C12, amended: two blocks that differ in exactly one of the five hashed
fields never serialize to the same bytes when that field is `Data` or
`PrevHash`, when it is `Timestamp` and the two values have different
`String()` texts, or when it is `Index` or `Nonce` and `string(...)` does not
turn both values into U+FFFD. -/
theorem C12_text_differs_with_one_field (b c : Block) (h : TextChanged b c) :
    c.record ≠ b.record :=
  h.record_ne.1

/-- C12 amended, at `block2` and the same block with another `Data`. -/
theorem C12_witness :
    TextChanged block2 block2Edited ∧ block2Edited.record ≠ block2.record :=
  ⟨TextChanged.data (lit "Second Blocl") (by decide),
   C12_text_differs_with_one_field block2 block2Edited
     (TextChanged.data (lit "Second Blocl") (by decide))⟩

/-- C13: for every block, `CalculateHash` returns a string of exactly 64
characters, each a lower-case hexadecimal digit (`0`-`9`, `a`-`f`); the
SHA-256 digest it encodes has 32 bytes. -/
theorem C13_digest_is_64_hex_digits (b : Block) :
    (sha256Sum b.record).length = 32 ∧ b.CalculateHash.length = 64 ∧
      ∀ c ∈ b.CalculateHash, IsHexDigit c :=
  ⟨sha256Sum_length b.record, Block.CalculateHash_length b,
   hexEncodeToString_digits (sha256Sum b.record)⟩

/-- C14: `CalculateHash` is a function of `Index`, `Timestamp`, `Data`,
`PrevHash` and `Nonce`: two blocks with these five fields equal have the same
digest whatever their stored `Hash`; and the call leaves the block as it
was. -/
theorem C14_CalculateHash_pure (index : Int) (ts : Time) (data prev : GoString) (nonce : Int)
    (hash1 hash2 : GoString) :
    (Block.mk index ts data prev hash1 nonce).CalculateHash =
        (Block.mk index ts data prev hash2 nonce).CalculateHash ∧
      (Block.mk index ts data prev hash1 nonce).CalculateHashCall.2 =
        Block.mk index ts data prev hash1 nonce ∧
      (Block.mk index ts data prev hash1 nonce).CalculateHashCall.1 =
        (Block.mk index ts data prev hash1 nonce).CalculateHash :=
  ⟨rfl, rfl, rfl⟩

/-- C15, as stated, fails: `MineBlock(1)` on `candidateAtMax`, whose `Nonce` is
the largest `int`, returns with `Nonce` 1: the increment overflows to the
smallest `int` and the loop goes on through the negative nonces to 0 and 1.
The final `Nonce` is below the initial one. -/
theorem C15_counterexample :
    candidateAtMax.MineBlock 9223372036854775811 1 = Outcome.returned candidateMined ∧
      candidateMined.Nonce < candidateAtMax.Nonce :=
  ⟨candidateAtMax_run, by decide⟩

/-- C15, amended: when `MineBlock(d)` returns, `Index`, `Timestamp`, `Data` and
`PrevHash` are those of the block before the call, and the final `Nonce` is
the initial one incremented once for each failed iteration in Go's `int`
arithmetic; it is the initial `Nonce` plus that number, hence not below the
initial `Nonce`, whenever the sum does not exceed the largest `int`. -/
theorem C15_MineBlock_frame (fuel : Nat) (d : Int) (b r : Block)
    (h : b.MineBlock fuel d = Outcome.returned r) :
    r.Index = b.Index ∧ r.Timestamp = b.Timestamp ∧ r.Data = b.Data ∧
      r.PrevHash = b.PrevHash ∧
      ∃ k, k < fuel ∧ r.Nonce = nonceAt b.Nonce k ∧
        (IsInt b.Nonce → b.Nonce + k ≤ maxInt → r.Nonce = b.Nonce + k ∧ b.Nonce ≤ r.Nonce) := by
  have hd := MineBlock_returned_nonneg h
  rw [MineBlock_eq_mineLoop fuel d hd (MineBlock_returned_le h)] at h
  obtain ⟨-, -, h3, h4, h5, h6⟩ := mineLoop_returned h
  obtain ⟨k, hk, hr, -, -⟩ := mineLoop_returned_at h
  refine ⟨h3, h4, h5, h6, k, hk, by rw [hr], ?_⟩
  intro hint hle
  have hn : r.Nonce = nonceAt b.Nonce k := by rw [hr]
  rw [hn, nonceAt_eq _ hint]
  have hw : wrapInt (b.Nonce + k) = b.Nonce + k := by
    apply wrapInt_of_IsInt
    unfold IsInt minInt maxInt at *
    omega
  rw [hw]
  exact ⟨rfl, by omega⟩

/-- C15 amended, at the run of two iterations at difficulty 1. -/
theorem C15_witness :
    candidate.MineBlock 2 1 = Outcome.returned candidateMined ∧
      candidateMined.Index = candidate.Index ∧ candidateMined.Timestamp = candidate.Timestamp ∧
      candidateMined.Data = candidate.Data ∧ candidateMined.PrevHash = candidate.PrevHash :=
  ⟨candidate_run,
   (C15_MineBlock_frame 2 1 candidate candidateMined candidate_run).1,
   (C15_MineBlock_frame 2 1 candidate candidateMined candidate_run).2.1,
   (C15_MineBlock_frame 2 1 candidate candidateMined candidate_run).2.2.1,
   (C15_MineBlock_frame 2 1 candidate candidateMined candidate_run).2.2.2.1⟩

/-- C16: in every chain built by `NewBlockchain` and `AddBlock` calls, every
block at a position `i ≥ 1` has a `Hash` that begins with "00", the proof of
work it was mined under, and `blocks[i].PrevHash == blocks[i-1].Hash`. -/
theorem C16_built_chain_mined_and_linked (n : Nat) (bc : Blockchain) (h : Built n bc) :
    (∀ (i : Nat) (b : Block), 1 ≤ i → bc.blocks[i]? = some b →
        2 ≤ b.Hash.length ∧ b.Hash.take 2 = [48, 48]) ∧
      ∀ (i : Nat) (cur prev : Block), 1 ≤ i → bc.blocks[i]? = some cur →
        bc.blocks[i - 1]? = some prev → cur.PrevHash = prev.Hash := by
  constructor
  · intro i b hi hb
    have hp := Built_mined h i b hi hb
    rw [HasPrefix_iff] at hp
    exact hp
  · intro i cur prev hi hc hp
    exact ((IsValid_iff_positions bc).1 (Built_invariant h).1 i cur prev hi hc hp).2

/-- C16 at the scenario of the specification. -/
theorem C16_witness :
    Built 3 chain3 ∧ block3.Hash.take 2 = [48, 48] ∧ block3.PrevHash = block2.Hash :=
  ⟨chain3_built,
   ((C16_built_chain_mined_and_linked 3 chain3 chain3_built).1 3 block3 (by decide) rfl).2,
   (C16_built_chain_mined_and_linked 3 chain3 chain3_built).2 3 block3 block2 (by decide) rfl rfl⟩

/-- C17: `IsValid` trusts the digest of the block at position 0: whatever
`Index`, `Timestamp`, `Data`, `PrevHash` and `Nonce` that block is given, with
its `Hash` left as it is, `IsValid` returns what it returned before; so a
genesis block whose `Hash` is not `CalculateHash` of its fields is accepted,
as in the chain of the scenario with the `Data` of its genesis block
changed. -/
theorem C17_genesis_digest_trusted (g : Block) (rest : List Block) (index : Int) (ts : Time)
    (data prev : GoString) (nonce : Int) :
    Blockchain.IsValid { blocks := Block.mk index ts data prev g.Hash nonce :: rest } =
        Blockchain.IsValid { blocks := g :: rest } ∧
      (block0Edited.Hash ≠ block0Edited.CalculateHash ∧
        Blockchain.IsValid { blocks := [block0Edited, block1, block2, block3] } = true) := by
  refine ⟨IsValid_cons_congr g _ rest rfl, block0Edited_digest, ?_⟩
  exact (IsValid_cons_congr block0 block0Edited [block1, block2, block3] rfl).trans
    (Built_invariant chain3_built).1

/-- C18, as stated, fails: on `candidateAtMax` (initial nonce the largest
`int`) `MineBlock(1)` returns with nonce 1, which is not an integer at or
above the initial nonce: after the overflow the loop searches the nonces
below it. -/
theorem C18_counterexample :
    (∃ fuel r, candidateAtMax.MineBlock fuel 1 = Outcome.returned r ∧ r.Nonce = 1) ∧
      ¬ (candidateAtMax.Nonce ≤ 1) :=
  ⟨⟨9223372036854775811, candidateMined, candidateAtMax_run, rfl⟩, by decide⟩

/-- C18, amended: when `MineBlock(d)` returns, the final nonce is the first in
the sequence the loop goes through (the initial nonce, then one increment
after another in Go's `int` arithmetic) for which the digest of the block
begins with `d` characters `'0'`, and `Hash` is that digest; when the initial
nonce plus the number of increments does not exceed the largest `int`, the
final nonce is the smallest integer at or above the initial one with such a
digest; for `d = 0` the `Nonce` is left as it was and `Hash` is the digest at
it. -/
theorem C18_least_nonce (fuel : Nat) (d : Int) (b r : Block)
    (h : b.MineBlock fuel d = Outcome.returned r) :
    ∃ k, k < fuel ∧ r.Nonce = nonceAt b.Nonce k ∧ r.Hash = r.CalculateHash ∧
      HasPrefix r.CalculateHash (List.replicate d.toNat 48) = true ∧
      (∀ j, j < k →
        HasPrefix ({ b with Nonce := nonceAt b.Nonce j } : Block).CalculateHash
          (List.replicate d.toNat 48) = false) ∧
      (IsInt b.Nonce → b.Nonce + k ≤ maxInt →
        r.Nonce = b.Nonce + k ∧
        ∀ m : Int, b.Nonce ≤ m → m < r.Nonce →
          HasPrefix ({ b with Nonce := m } : Block).CalculateHash
            (List.replicate d.toNat 48) = false) ∧
      (d = 0 → r.Nonce = b.Nonce ∧ r.Hash = b.CalculateHash) := by
  have hd := MineBlock_returned_nonneg h
  rw [MineBlock_eq_mineLoop fuel d hd (MineBlock_returned_le h)] at h
  obtain ⟨k, hk, hr, hhit, hfail⟩ := mineLoop_returned_at h
  have hn : r.Nonce = nonceAt b.Nonce k := by rw [hr]
  have hc : r.CalculateHash = ({ b with Nonce := nonceAt b.Nonce k } : Block).CalculateHash := by
    rw [hr]
    rfl
  have hh : r.Hash = ({ b with Nonce := nonceAt b.Nonce k } : Block).CalculateHash := by rw [hr]
  refine ⟨k, hk, hn, by rw [hh, hc], by rw [hc]; exact hhit, hfail, ?_, ?_⟩
  · intro hint hle
    have hw : ∀ j : Nat, j ≤ k → nonceAt b.Nonce j = b.Nonce + j := by
      intro j hj
      rw [nonceAt_eq _ hint]
      apply wrapInt_of_IsInt
      unfold IsInt minInt maxInt at *
      omega
    have hnk : r.Nonce = b.Nonce + k := by rw [hn, hw k (le_refl k)]
    refine ⟨hnk, ?_⟩
    intro m hm1 hm2
    obtain ⟨j, hj⟩ : ∃ j : Nat, m = b.Nonce + j := ⟨(m - b.Nonce).toNat, by omega⟩
    have hjk : j < k := by omega
    rw [hj, ← hw j (by omega)]
    exact hfail j hjk
  · intro h0
    subst h0
    have hk0 : k = 0 := by
      by_contra hne
      have := hfail 0 (by omega)
      simp [HasPrefix] at this
    subst hk0
    exact ⟨hn, hh⟩

/-- C18 amended, at the run of two iterations at difficulty 1: nonce 0 fails,
nonce 1 is the final one. -/
theorem C18_witness :
    candidate.MineBlock 2 1 = Outcome.returned candidateMined ∧
      ∃ k, k < 2 ∧ candidateMined.Nonce = nonceAt candidate.Nonce k :=
  ⟨candidate_run,
   (C18_least_nonce 2 1 candidate candidateMined candidate_run).imp
     (fun _ hk => ⟨hk.1, hk.2.1⟩)⟩

/-- C19: `string(v)`, the conversion `CalculateHash` applies to `Index` and
`Nonce`, is the UTF-8 encoding of the one code point `v` when `v` is a valid
one, and the encoding of U+FFFD (bytes EF BF BD) for every `v` that is
negative, in the surrogate range 0xD800-0xDFFF or above 0x10FFFF; hence any
two `Nonce` values above 0x10FFFF give a block the same digest. -/
theorem C19_int_conversion_collapses (b : Block) (n1 n2 : Int) (h1 : 0x10FFFF < n1)
    (h2 : 0x10FFFF < n2) :
    ({ b with Nonce := n1 } : Block).CalculateHash =
        ({ b with Nonce := n2 } : Block).CalculateHash ∧
      (∀ v : Int, IsInvalidRune v → intString v = [0xEF, 0xBF, 0xBD]) ∧
      (∀ v : Int, ¬ IsInvalidRune v → intString v = (utf8 v.toNat).map UInt8.ofNat) := by
  refine ⟨?_, ?_, intString_of_valid⟩
  · apply CalculateHash_of_IsReplaced
    · exact Or.inr (Or.inl h1)
    · exact Or.inr (Or.inl h2)
  · intro v hv
    apply intString_of_IsReplaced
    unfold IsInvalidRune at hv
    unfold IsReplaced
    omega

/-- C19 at the nonces 0x110000 and 2^40 of `candidate`. -/
theorem C19_witness :
    ({ candidate with Nonce := 1114112 } : Block).CalculateHash =
      ({ candidate with Nonce := 1099511627776 } : Block).CalculateHash :=
  (C19_int_conversion_collapses candidate 1114112 1099511627776 (by decide) (by decide)).1

end Chain
